import Mathlib

/-!
# Verification of the skill-registry generator

Shallow embedding of `registry/scripts/generate-registry.py`.

Modelling conventions:
* Byte strings (file names, file contents, path strings) are `List Nat`
  (`Bytes`).  Python compares `str` values lexicographically by code point;
  on the byte lists this is the lexicographic `LinearOrder (List Nat)`.
* A directory tree is an inductive `Entry`; the order of an entry list is the
  enumeration order the host filesystem happens to produce (the order
  `os.scandir`/`os.listdir` would yield before any sorting).
* The SHA-256 digest is an abstract parameter `H : Bytes → Bytes`; the script
  computes `"sha256:" + H(stream)` where `stream` is the exact byte sequence
  fed to `hashlib.sha256` via `update` calls.  Claims about distinctness of
  fingerprints are proved under the hypothesis `Function.Injective H`, the
  standard idealisation of a collision-free digest.
* `yaml.safe_load` is an abstract parameter producing a `Yaml` value (the
  JSON-like fragment of YAML: null, bool, int, string, sequence, mapping with
  string keys).  A small concrete parser `yamlParseMini` for `key: value`
  frontmatters instantiates it in witnesses.
-/
abbrev Bytes := List Nat

/-- ASCII encoding of a Lean string literal (only used for ASCII constants). -/
def asciiBytes (s : String) : Bytes := s.data.map Char.toNat

/-- A filesystem entry.  The list order of `dir`'s entries is the (arbitrary)
enumeration order of the host filesystem. -/
inductive Entry where
  | file (name : Bytes) (content : Bytes)
  | dir (name : Bytes) (entries : List Entry)

/-- The entry's own name (`os.listdir` yields these). -/
def Entry.name : Entry → Bytes
  | .file n _ => n
  | .dir n _ => n

/-- The regular files of a directory listing, in enumeration order
(`filenames` component of an `os.walk` triple). -/
def filesIn : List Entry → List (Bytes × Bytes)
  | [] => []
  | .file n c :: r => (n, c) :: filesIn r
  | .dir _ _ :: r => filesIn r

/-- A frame of `os.walk`: the directory's path relative to the walk root
(as components) and its regular files. -/
abbrev Frame := List Bytes × List (Bytes × Bytes)

/-- All strict-subdirectory frames produced by `os.walk(root)` (top-down:
each directory's frame precedes the frames of its subtree, subdirectories
in enumeration order).  `rel` is the relative component path accumulated
so far. -/
def walkSubs : List Bytes → List Entry → List Frame
  | _, [] => []
  | rel, .file _ _ :: r => walkSubs rel r
  | rel, .dir n es :: r =>
      ((rel ++ [n], filesIn es) :: walkSubs (rel ++ [n]) es) ++ walkSubs rel r

/-- `os.walk(skill_dir)`: the root's own frame followed by all subdirectory
frames.  The `dirnames` component is omitted: `sorted()` on walk triples
compares the (pairwise distinct) directory paths first, so only the path
matters for the ordering, and the hash loop never reads `dirnames`. -/
def osWalk (es : List Entry) : List Frame := ([], filesIn es) :: walkSubs [] es

/-- `os.path.join`/`os.sep`-joining of relative path components. -/
def joinComps (sep : Nat) : List Bytes → Bytes
  | [] => []
  | [c] => c
  | c :: c' :: cs => c ++ sep :: joinComps sep (c' :: cs)

/-- The absolute path of a walked directory: `os.path.join(skillDir, *comps)`
(`skillDir` itself for the root frame). -/
def framePath (root : Bytes) (sep : Nat) (comps : List Bytes) : Bytes :=
  match comps with
  | [] => root
  | _ => root ++ sep :: joinComps sep comps

/-- `os.path.relpath(filepath, skill_dir)` for a file `name` inside the
directory with relative components `comps`. -/
def relPath (sep : Nat) (comps : List Bytes) (name : Bytes) : Bytes :=
  joinComps sep (comps ++ [name])

/-- Sorting of the `os.walk` triples: `sorted(os.walk(skill_dir))` compares
the full directory path strings (they are pairwise distinct on a real
filesystem, so the rest of the triple is never compared). -/
def sortFrames (root : Bytes) (sep : Nat) (frames : List Frame) : List Frame :=
  frames.insertionSort (fun f g => framePath root sep f.1 ≤ framePath root sep g.1)

/-- `sorted(files)`: files of one directory sorted by file name. -/
def sortFiles (files : List (Bytes × Bytes)) : List (Bytes × Bytes) :=
  files.insertionSort (fun a b => a.1 ≤ b.1)

/-- The exact byte stream fed to the SHA-256 hasher by
`compute_content_hash`: for each walk triple in sorted order, for each file
in sorted order, the relative path bytes followed by the raw content. -/
def hashInput (root : Bytes) (sep : Nat) (es : List Entry) : Bytes :=
  (sortFrames root sep (osWalk es)).flatMap
    (fun fr => (sortFiles fr.2).flatMap (fun f => relPath sep fr.1 f.1 ++ f.2))

def sha256Tag : Bytes := asciiBytes "sha256:"

/-- `compute_content_hash(skill_dir)`, with the digest abstracted as `H`:
returns `"sha256:" + H(stream)`. -/
def compute_content_hash (H : Bytes → Bytes) (root : Bytes) (sep : Nat)
    (es : List Entry) : Bytes :=
  sha256Tag ++ H (hashInput root sep es)

/-! ## The flat view of a tree's files

`collectFiles rel es` lists every file of the subtree as a triple
`(directory components, file name, content)`, in plain tree order.  It is the
reference ("specification side") view against which the walk-and-sort loop of
`compute_content_hash` is verified. -/
def collectFiles : List Bytes → List Entry → List (List Bytes × Bytes × Bytes)
  | _, [] => []
  | rel, .file n c :: r => (rel, n, c) :: collectFiles rel r
  | rel, .dir n es :: r => collectFiles (rel ++ [n]) es ++ collectFiles rel r

/-- The file order claimed by the spec sentence of C1: directories in
lexicographic order *at every level* — i.e. file triples ordered by their
component paths under the component-wise (nested) lexicographic order — and
files within one directory ordered by name. -/
def claimedLe (t₁ t₂ : List Bytes × Bytes × Bytes) : Prop :=
  t₁.1 < t₂.1 ∨ (t₁.1 = t₂.1 ∧ t₁.2.1 ≤ t₂.2.1)

instance : DecidableRel claimedLe := fun t₁ t₂ => by
  unfold claimedLe; infer_instance

/-- Modelled from the spec: the hasher input stream asserted by claim C1 —
for every file, relative path then content, with directories visited in
lexicographic order at every level, files within a directory in lexicographic
order, and the canonical separator `/` (47) independent of the host. -/
def claimedStream (es : List Entry) : Bytes :=
  ((collectFiles [] es).insertionSort claimedLe).flatMap
    (fun t => relPath 47 t.1 t.2.1 ++ t.2.2)

/-- The package tree refuting C1's traversal order: directory `a-b` sorts
before `a/z` by full path string (`-` < `/`), but after it in the per-level
lexicographic depth-first order. -/
def c1Tree : List Entry :=
  [.dir (asciiBytes "a") [.dir (asciiBytes "z") [.file (asciiBytes "g") (asciiBytes "2")]],
   .dir (asciiBytes "a-b") [.file (asciiBytes "f") (asciiBytes "1")]]

/-! ## Well-formed trees

A real filesystem guarantees: names in one directory are pairwise distinct,
nonempty, and contain no separator byte. -/
/-- A legal entry name: nonempty and free of the path separator. -/
def NameOk (sep : Nat) (n : Bytes) : Prop := n ≠ [] ∧ sep ∉ n

/-- All components of a relative path are legal names. -/
def CompsOk (sep : Nat) (c : List Bytes) : Prop := ∀ x ∈ c, NameOk sep x

def namesOf (es : List Entry) : List Bytes := es.map Entry.name

/-- Filesystem well-formedness of a directory listing, at every level. -/
def Wf (sep : Nat) : List Entry → Prop
  | [] => True
  | .file n _ :: r => NameOk sep n ∧ n ∉ namesOf r ∧ Wf sep r
  | .dir n es :: r => NameOk sep n ∧ n ∉ namesOf r ∧ Wf sep es ∧ Wf sep r

/-! ## Path joining is injective on well-formed component lists -/
def dirNames : List Entry → List Bytes
  | [] => []
  | .file _ _ :: r => dirNames r
  | .dir n _ :: r => n :: dirNames r

/-- One walk frame's files as triples, in raw (unsorted) order. -/
def plainTriples (fr : Frame) : List (List Bytes × Bytes × Bytes) :=
  fr.2.map (fun f => (fr.1, f.1, f.2))

/-- One walk frame's files as triples, files sorted by name (as the hashing
loop consumes them). -/
def frameTriples (fr : Frame) : List (List Bytes × Bytes × Bytes) :=
  (sortFiles fr.2).map (fun f => (fr.1, f.1, f.2))

/-- The file triples in the exact order `compute_content_hash` feeds them. -/
def codeTriples (root : Bytes) (sep : Nat) (es : List Entry) :
    List (List Bytes × Bytes × Bytes) :=
  (sortFrames root sep (osWalk es)).flatMap frameTriples

/-! ## The walked files are exactly the collected files sorted by
`(joined directory path, file name)` -/
/-- The order in which `compute_content_hash` visits files, expressed on the
flat file triples: by joined directory path string first, then by file name. -/
def tripleLe (sep : Nat) (t₁ t₂ : List Bytes × Bytes × Bytes) : Prop :=
  joinComps sep t₁.1 < joinComps sep t₂.1 ∨
    (joinComps sep t₁.1 = joinComps sep t₂.1 ∧ t₁.2.1 ≤ t₂.2.1)

instance (sep : Nat) : DecidableRel (tripleLe sep) := fun t₁ t₂ => by
  unfold tripleLe; infer_instance

instance (sep : Nat) : IsTotal (List Bytes × Bytes × Bytes) (tripleLe sep) := by
  refine ⟨fun t₁ t₂ => ?_⟩
  rcases lt_trichotomy (joinComps sep t₁.1) (joinComps sep t₂.1) with h | h | h
  · exact Or.inl (Or.inl h)
  · rcases le_total t₁.2.1 t₂.2.1 with h' | h'
    · exact Or.inl (Or.inr ⟨h, h'⟩)
    · exact Or.inr (Or.inr ⟨h.symm, h'⟩)
  · exact Or.inr (Or.inl h)

instance (sep : Nat) : IsTrans (List Bytes × Bytes × Bytes) (tripleLe sep) := by
  refine ⟨fun t₁ t₂ t₃ h h' => ?_⟩
  rcases h with h | ⟨he, hn⟩ <;> rcases h' with h' | ⟨he', hn'⟩
  · exact Or.inl (lt_trans h h')
  · exact Or.inl (he' ▸ h)
  · exact Or.inl (he ▸ h')
  · exact Or.inr ⟨he.trans he', le_trans hn hn'⟩

/-- The refinement target for the hasher: all files of the package, sorted by
`(joined directory path, name)`, each contributing relative path then
content. -/
def amendedStream (sep : Nat) (es : List Entry) : Bytes :=
  ((collectFiles [] es).insertionSort (tripleLe sep)).flatMap
    (fun t => relPath sep t.1 t.2.1 ++ t.2.2)

/-! ## Canonical form of a tree: the same tree up to filesystem enumeration
order -/
def entryLe (e₁ e₂ : Entry) : Prop := e₁.name ≤ e₂.name

instance : DecidableRel entryLe := fun e₁ e₂ => by unfold entryLe; infer_instance

/-- Recursively sort every directory's entries by name; two trees have the
same canonical form exactly when they present the same files and directories,
merely enumerated in different orders. -/
def canonMap : List Entry → List Entry
  | [] => []
  | .file n c :: r => .file n c :: canonMap r
  | .dir n s :: r => .dir n ((canonMap s).insertionSort entryLe) :: canonMap r

def canonTree (es : List Entry) : List Entry := (canonMap es).insertionSort entryLe

/-- The flat file triples of one entry. -/
def entryBlock (rel : List Bytes) : Entry → List (List Bytes × Bytes × Bytes)
  | .file n c => [(rel, n, c)]
  | .dir n s => collectFiles (rel ++ [n]) s

/-! ## Tree edits: changing a file's content, renaming a file, adding a file -/
/-- Apply `g` to the `(name, content)` pair of every regular file of one
directory listing (subdirectories untouched). -/
def mapFiles (g : Bytes × Bytes → Bytes × Bytes) (es : List Entry) : List Entry :=
  es.map (fun e => match e with
    | .file n c => .file (g (n, c)).1 (g (n, c)).2
    | .dir m s => .dir m s)

/-- Replace the content of the file named `n` with `c'`. -/
def setContentIn (n c' : Bytes) : List Entry → List Entry :=
  mapFiles (fun f => if f.1 = n then (f.1, c') else f)

/-- Rename the file named `n` to `n'` (content kept). -/
def renameIn (n n' : Bytes) : List Entry → List Entry :=
  mapFiles (fun f => if f.1 = n then (n', f.2) else f)

/-- Create a file named `n` with content `c` (appended in enumeration
order). -/
def addFileIn (n c : Bytes) (es : List Entry) : List Entry := es ++ [.file n c]

/-- Apply the listing edit `f` to the subdirectory reached by the component
path `p` (identity when the path does not exist). -/
def editAt : List Bytes → (List Entry → List Entry) → List Entry → List Entry
  | [], f, es => f es
  | _ :: _, _, [] => []
  | q :: p, f, .file m c :: rest => .file m c :: editAt (q :: p) f rest
  | q :: p, f, .dir m s :: rest =>
      if m = q then .dir m (editAt p f s) :: editAt (q :: p) f rest
      else .dir m s :: editAt (q :: p) f rest

/-- The component path `p` names an (existing) directory of the tree. -/
def DirPath : List Bytes → List Entry → Prop
  | [], _ => True
  | q :: p, es => ∃ s, Entry.dir q s ∈ es ∧ DirPath p s

/-- The claim-C3 rename collision: two root files `ab ↦ "b"` and
`abbab ↦ ""`. -/
def c3TreeA : List Entry :=
  [.file (asciiBytes "ab") (asciiBytes "b"), .file (asciiBytes "abbab") []]

/-- `c3TreeA` after renaming the file `ab` to `ba`. -/
def c3TreeB : List Entry :=
  [.file (asciiBytes "ba") (asciiBytes "b"), .file (asciiBytes "abbab") []]

/-! ## The metadata parser (`parse_skill_md`)

`yaml.safe_load` is abstracted as a parameter `yamlParse` producing a `Yaml`
value (the JSON-like fragment: null, bool, int, str, sequence, mapping with
string keys — the shapes the generator can meet; mapping keys model Python's
insertion-ordered `dict`, so lookups take the first matching key). -/
inductive Yaml where
  | nil
  | bool (b : Bool)
  | int (n : Int)
  | str (s : Bytes)
  | seq (items : List Yaml)
  | map (pairs : List (Bytes × Yaml))

inductive ParseErr where
  | missingSkillMd
  | missingFrontmatter
  | malformedFrontmatter
  | yamlError (msg : Bytes)
  | notAMapping
  | missingRequiredField (field : Bytes)
deriving DecidableEq

def skillMdName : Bytes := asciiBytes "SKILL.md"

/-- The entry named `SKILL.md` in the package directory, if any.
`os.path.exists(skill_md)` is true for a regular file *and* for a directory
of that name; which of the two it is decides what `open(skill_md, "r")`
does next (read, or raise `IsADirectoryError`).  A real directory has at
most one entry of a given name. -/
def findSkillMd (es : List Entry) : Option Entry :=
  es.find? (fun e => e.name = skillMdName)

/-- Does `s` start with `pat` (`str.startswith`)? -/
def leadsWith : Bytes → Bytes → Bool
  | [], _ => true
  | _ :: _, [] => false
  | p :: ps, c :: cs => p = c && leadsWith ps cs

/-- Split at the first occurrence of `pat` (leftmost match), returning the
part before and the part after, or `none` when `pat` does not occur. -/
def splitOnce (pat : Bytes) : Bytes → Option (Bytes × Bytes)
  | [] => if leadsWith pat [] then some ([], []) else none
  | c :: cs =>
      if leadsWith pat (c :: cs) then some ([], (c :: cs).drop pat.length)
      else (splitOnce pat cs).map (fun pr => (c :: pr.1, pr.2))

/-- Python's `s.split(pat, 2)`: at most two splits, scanning left to right
over non-overlapping occurrences. -/
def pySplit2 (pat s : Bytes) : List Bytes :=
  match splitOnce pat s with
  | none => [s]
  | some (a, r₁) =>
      match splitOnce pat r₁ with
      | none => [a, r₁]
      | some (b, r₂) => [a, b, r₂]

def fence : Bytes := asciiBytes "---"

def REQUIRED_FIELDS : List Bytes :=
  [asciiBytes "name", asciiBytes "description", asciiBytes "version",
   asciiBytes "author"]

/-- `field in frontmatter` for the mapping model. -/
def hasKey (m : List (Bytes × Yaml)) (k : Bytes) : Bool :=
  m.any (fun p => p.1 = k)

/-- `frontmatter[k]` / `frontmatter.get(k)` for the mapping model. -/
def ymLookup (m : List (Bytes × Yaml)) (k : Bytes) : Option Yaml :=
  (m.find? (fun p => p.1 = k)).map (fun p => p.2)

/-- The first entry of `REQUIRED_FIELDS` that is absent (the loop stops at
the first missing field). -/
def firstMissingField (m : List (Bytes × Yaml)) : Option Bytes :=
  REQUIRED_FIELDS.find? (fun f => !hasKey m f)

/-- `parse_skill_md(skill_dir)`.  The Python function prints a diagnostic and
returns `None` on a handled failure; the model returns the error kind
instead (`some (.error _)`).  When the `SKILL.md` entry exists but is a
directory, `open(skill_md, "r")` raises `IsADirectoryError`, which no caller
handles: the result `none` models that unhandled exception propagating out
of the function. -/
def parse_skill_md (yamlParse : Bytes → Except Bytes Yaml) (pkg : List Entry) :
    Option (Except ParseErr (List (Bytes × Yaml))) :=
  match findSkillMd pkg with
  | none => some (.error .missingSkillMd)
  | some (.dir _ _) => none
  | some (.file _ content) =>
      if leadsWith fence content = false then some (.error .missingFrontmatter)
      else
        match pySplit2 fence content with
        | [_, body, _] =>
            match yamlParse body with
            | .error e => some (.error (.yamlError e))
            | .ok (.map m) =>
                match firstMissingField m with
                | some f => some (.error (.missingRequiredField f))
                | none => some (.ok m)
            | .ok _ => some (.error .notAMapping)
        | _ => some (.error .malformedFrontmatter)

/-! ## Records and `main` -/
def isPyWs (c : Nat) : Bool :=
  c = 32 || c = 9 || c = 10 || c = 13 || c = 11 || c = 12

/-- Python `str.strip()` (ASCII whitespace on byte strings). -/
def pyStrip (s : Bytes) : Bytes :=
  ((s.dropWhile isPyWs).reverse.dropWhile isPyWs).reverse

/-- Python truthiness of a YAML value. -/
def pyTruthy : Yaml → Bool
  | .nil => false
  | .bool b => b
  | .int n => n != 0
  | .str s => !s.isEmpty
  | .seq l => !l.isEmpty
  | .map m => !m.isEmpty

structure SkillRecord where
  id : Yaml
  description : Bytes
  version : Yaml
  author : Yaml
  contentHash : Bytes
  requiresEnv : Yaml
  hasExecutionManifest : Bool

/-- The record construction in `main`'s loop body.  Python evaluates
`frontmatter["description"].strip()`, which raises an unhandled exception
(crashing the whole run) unless the value is a string; all other values are
used as-is.  (`name`, `version`, `author` are present — validation checked —
so the `.getD .nil` defaults are never taken.) -/
def buildRecord (fm : List (Bytes × Yaml)) (hash : Bytes) : Except Unit SkillRecord :=
  match ymLookup fm (asciiBytes "description") with
  | some (.str d) =>
      .ok { id := (ymLookup fm (asciiBytes "name")).getD .nil
            description := pyStrip d
            version := (ymLookup fm (asciiBytes "version")).getD .nil
            author := (ymLookup fm (asciiBytes "author")).getD .nil
            contentHash := hash
            requiresEnv :=
              (fun re => if pyTruthy re then re else Yaml.seq [])
                ((ymLookup fm (asciiBytes "requires_env")).getD (Yaml.seq []))
            hasExecutionManifest := hasKey fm (asciiBytes "execution") }
  | _ => .error ()

def Entry.isDir : Entry → Bool
  | .dir _ _ => true
  | .file _ _ => false

/-- `sorted(os.listdir(skills_dir))` with the subsequent per-name lookup:
the entries in ascending name order. -/
def sortedEntries (es : List Entry) : List Entry :=
  es.insertionSort (fun a b => a.name ≤ b.name)

/-- The per-directory loop of `main`: non-directories are skipped silently,
handled parse failures are counted, records accumulate in iteration order,
and an unhandled exception — raised inside `parse_skill_md` (`none`) or by
the record construction — aborts the run (`.error ()`). -/
def processEntries (yamlParse : Bytes → Except Bytes Yaml) (H : Bytes → Bytes)
    (rootPath : Bytes) (sep : Nat) : List Entry → Except Unit (Nat × List SkillRecord)
  | [] => .ok (0, [])
  | .file _ _ :: rest => processEntries yamlParse H rootPath sep rest
  | .dir n s :: rest =>
      match parse_skill_md yamlParse s with
      | none => .error ()
      | some (.error _) =>
          match processEntries yamlParse H rootPath sep rest with
          | .error () => .error ()
          | .ok (k, recs) => .ok (k + 1, recs)
      | some (.ok fm) =>
          match buildRecord fm (compute_content_hash H (rootPath ++ sep :: n) sep s) with
          | .error () => .error ()
          | .ok r =>
              match processEntries yamlParse H rootPath sep rest with
              | .error () => .error ()
              | .ok (k, recs) => .ok (k, r :: recs)

/-! ### `json.dump(registry, f, indent=2)` -/
inductive Json where
  | null
  | bool (b : Bool)
  | int (n : Int)
  | str (s : Bytes)
  | arr (items : List Json)
  | obj (fields : List (Bytes × Json))

mutual
def yamlToJson : Yaml → Json
  | .nil => .null
  | .bool b => .bool b
  | .int n => .int n
  | .str s => .str s
  | .seq l => .arr (yamlListToJson l)
  | .map m => .obj (yamlPairsToJson m)
def yamlListToJson : List Yaml → List Json
  | [] => []
  | y :: r => yamlToJson y :: yamlListToJson r
def yamlPairsToJson : List (Bytes × Yaml) → List (Bytes × Json)
  | [] => []
  | (k, y) :: r => (k, yamlToJson y) :: yamlPairsToJson r
end

def natDigits (n : Nat) : Bytes :=
  if n < 10 then [48 + n]
  else natDigits (n / 10) ++ [48 + n % 10]
decreasing_by exact Nat.div_lt_self (by omega) (by omega)

def intRepr : Int → Bytes
  | .ofNat n => natDigits n
  | .negSucc m => 45 :: natDigits (m + 1)

def hexDigit (n : Nat) : Nat := if n < 10 then 48 + n else 87 + n

/-- Escaping of one byte in a JSON string, as CPython's
`json` with `ensure_ascii=True` escapes code points (shortcuts for the
common controls, `\u00XX` for the rest outside 0x20–0x7e). -/
def escByte (c : Nat) : Bytes :=
  if c = 34 then [92, 34]
  else if c = 92 then [92, 92]
  else if c = 8 then [92, 98]
  else if c = 12 then [92, 102]
  else if c = 10 then [92, 110]
  else if c = 13 then [92, 114]
  else if c = 9 then [92, 116]
  else if c < 32 || c > 126 then [92, 117, 48, 48, hexDigit (c / 16), hexDigit (c % 16)]
  else [c]

def escString (s : Bytes) : Bytes := 34 :: s.flatMap escByte ++ [34]

def jNewline (lvl : Nat) : Bytes := 10 :: List.replicate (2 * lvl) 32

mutual
def dumpJson : Nat → Json → Bytes
  | _, .null => asciiBytes "null"
  | _, .bool true => asciiBytes "true"
  | _, .bool false => asciiBytes "false"
  | _, .int n => intRepr n
  | _, .str s => escString s
  | _, .arr [] => [91, 93]
  | lvl, .arr (x :: xs) =>
      91 :: jNewline (lvl + 1) ++ dumpJson (lvl + 1) x ++
        dumpRest (lvl + 1) xs ++ jNewline lvl ++ [93]
  | _, .obj [] => [123, 125]
  | lvl, .obj (f :: fs) =>
      123 :: jNewline (lvl + 1) ++ dumpField (lvl + 1) f ++
        dumpFields (lvl + 1) fs ++ jNewline lvl ++ [125]
def dumpRest : Nat → List Json → Bytes
  | _, [] => []
  | lvl, x :: xs => 44 :: jNewline lvl ++ dumpJson lvl x ++ dumpRest lvl xs
def dumpField : Nat → Bytes × Json → Bytes
  | lvl, (k, v) => escString k ++ [58, 32] ++ dumpJson lvl v
def dumpFields : Nat → List (Bytes × Json) → Bytes
  | _, [] => []
  | lvl, f :: fs => 44 :: jNewline lvl ++ dumpField lvl f ++ dumpFields lvl fs
end

/-- One record as the JSON object `main` builds (dict literal order). -/
def recordToJson (r : SkillRecord) : Json :=
  .obj [(asciiBytes "id", yamlToJson r.id),
        (asciiBytes "description", .str r.description),
        (asciiBytes "version", yamlToJson r.version),
        (asciiBytes "author", yamlToJson r.author),
        (asciiBytes "contentHash", .str r.contentHash),
        (asciiBytes "requiresEnv", yamlToJson r.requiresEnv),
        (asciiBytes "hasExecutionManifest", .bool r.hasExecutionManifest)]

/-- `json.dump({"skills": skills}, f, indent=2)` followed by `f.write("\n")`. -/
def emitRegistry (recs : List SkillRecord) : Bytes :=
  dumpJson 0 (.obj [(asciiBytes "skills", .arr (recs.map recordToJson))]) ++ [10]

inductive RunResult where
  | fatalRootMissing
  | crash
  | validationFailure (errors : Nat)
  | success (artifact : Bytes) (count : Nat)

/-- Process exit status: 0 only for a successful run (`sys.exit(1)` on a
missing root or failed validation; an uncaught exception also exits 1). -/
def exitCode : RunResult → Nat
  | .success _ _ => 0
  | _ => 1

/-- The bytes written to `registry.json`, if any. -/
def artifactOf : RunResult → Option Bytes
  | .success a _ => some a
  | _ => none

/-- `main()`.  `root = none` models `os.path.isdir(skills_dir)` being false
(missing or non-directory skills root). -/
def mainRun (yamlParse : Bytes → Except Bytes Yaml) (H : Bytes → Bytes)
    (rootPath : Bytes) (sep : Nat) (root : Option (List Entry)) : RunResult :=
  match root with
  | none => .fatalRootMissing
  | some es =>
      match processEntries yamlParse H rootPath sep (sortedEntries es) with
      | .error () => .crash
      | .ok (errors, recs) =>
          if errors > 0 then .validationFailure errors
          else .success (emitRegistry recs) recs.length

/-- The artifact for the empty registry:
`"\x7b\n  \"skills\": []\n\x7d\n"` (two-space indentation, single trailing
newline; 123/125 are the braces). -/
def emptyRegistryBytes : Bytes :=
  [123, 10, 32, 32, 34] ++ asciiBytes "skills" ++ [34, 58, 32, 91, 93, 10, 125, 10]

/-! ### A concrete YAML instance for witnesses

Modelled from the spec ("YAML-equivalent semantics", restricted to the flat
`key: value` frontmatters the repository uses): each nonblank line is split at
the first `": "`; an all-digit value is an integer, anything else a string.
It instantiates the abstract `yamlParse` parameter in concrete runs. -/
def isDigit (c : Nat) : Bool := 48 ≤ c && c ≤ 57

def parseScalar (v : Bytes) : Yaml :=
  if v ≠ [] ∧ v.all isDigit = true then
    .int (Int.ofNat (v.foldl (fun acc c => acc * 10 + (c - 48)) 0))
  else .str v

/-- Insert preserving first-occurrence order, later value wins (dict). -/
def ymInsert (m : List (Bytes × Yaml)) (k : Bytes) (v : Yaml) : List (Bytes × Yaml) :=
  if hasKey m k then m.map (fun p => if p.1 = k then (k, v) else p) else m ++ [(k, v)]

def splitLinesAux : Bytes → Bytes → List Bytes
  | acc, [] => [acc.reverse]
  | acc, 10 :: r => acc.reverse :: splitLinesAux [] r
  | acc, c :: r => splitLinesAux (c :: acc) r

def splitLines (s : Bytes) : List Bytes := splitLinesAux [] s

def miniAddLines : List (Bytes × Yaml) → List Bytes → Except Bytes (List (Bytes × Yaml))
  | acc, [] => .ok acc
  | acc, l :: r =>
      if l.all isPyWs then miniAddLines acc r
      else
        match splitOnce (asciiBytes ": ") l with
        | none => .error l
        | some (k, v) => miniAddLines (ymInsert acc k (parseScalar v)) r

def yamlParseMini (s : Bytes) : Except Bytes Yaml :=
  (miniAddLines [] (splitLines s)).map (fun m => Yaml.map m)

/-! ## Specification-side view of the validation cascade and of the valid
packages -/
/-- Modelled from the spec: the validation sequence as an ordered list of
checks, each producing its error kind, the first failing check deciding the
package's diagnostic: fence prefix, three-part split, structured parse,
mapping type, required keys (in order, stopping at the first missing). -/
def specCheckList (yamlParse : Bytes → Except Bytes Yaml) (content : Bytes) :
    List (Option ParseErr) :=
  [if leadsWith fence content then none else some .missingFrontmatter,
   if (pySplit2 fence content).length < 3 then some .malformedFrontmatter else none,
   match yamlParse ((pySplit2 fence content).getD 1 []) with
   | .error e => some (.yamlError e)
   | .ok _ => none,
   match yamlParse ((pySplit2 fence content).getD 1 []) with
   | .ok (.map _) => none
   | .ok _ => some .notAMapping
   | .error _ => none,
   match yamlParse ((pySplit2 fence content).getD 1 []) with
   | .ok (.map m) => (firstMissingField m).map (fun f => .missingRequiredField f)
   | _ => none]

/-- Modelled from the spec: locate the declaration file, then run the checks
of `specCheckList` in order, short-circuiting at the first failure.  Only
the check cascade is under test here; the location step (including the
collapsed `IsADirectoryError` case, `none`) is shared with the source's
behaviour. -/
def specParse (yamlParse : Bytes → Except Bytes Yaml) (pkg : List Entry) :
    Option (Except ParseErr (List (Bytes × Yaml))) :=
  match findSkillMd pkg with
  | none => some (.error .missingSkillMd)
  | some (.dir _ _) => none
  | some (.file _ content) =>
      match (specCheckList yamlParse content).findSome? id with
      | some e => some (.error e)
      | none =>
          match yamlParse ((pySplit2 fence content).getD 1 []) with
          | .ok (.map m) => some (.ok m)
          | _ => some (.ok [])

/-- The valid packages of a listing `l`, in listing order: directories whose
`SKILL.md` passes validation. -/
def validIn (yamlParse : Bytes → Except Bytes Yaml) : List Entry →
    List (Bytes × List Entry)
  | [] => []
  | .file _ _ :: rest => validIn yamlParse rest
  | .dir n s :: rest =>
      match parse_skill_md yamlParse s with
      | some (.ok _) => (n, s) :: validIn yamlParse rest
      | some (.error _) => validIn yamlParse rest
      | none => validIn yamlParse rest

/-- The valid packages of the skills root, in sorted directory-name order. -/
def validDirs (yamlParse : Bytes → Except Bytes Yaml) (es : List Entry) :
    List (Bytes × List Entry) :=
  validIn yamlParse (sortedEntries es)

instance : Inhabited SkillRecord :=
  ⟨⟨.nil, [], .nil, .nil, [], .nil, false⟩⟩

/-- The record `main` builds for a valid package directory (unused default
when the package is invalid or record construction would raise). -/
def recordOf (yamlParse : Bytes → Except Bytes Yaml) (H : Bytes → Bytes)
    (rootPath : Bytes) (sep : Nat) (d : Bytes × List Entry) : SkillRecord :=
  match parse_skill_md yamlParse d.2 with
  | some (.ok fm) =>
      match buildRecord fm (compute_content_hash H (rootPath ++ sep :: d.1) sep d.2) with
      | .ok r => r
      | .error () => default
  | some (.error _) => default
  | none => default

/-- A package whose frontmatter declares a non-string `description`
(`description: 1`): validation passes, record construction raises. -/
def c7Content : Bytes :=
  asciiBytes "---\nname: p\ndescription: 1\nversion: 1\nauthor: a\n---\nbody"

def c7Root : List Entry := [.dir (asciiBytes "pkg") [.file skillMdName c7Content]]

/-- The parsed frontmatter mapping of `c7Content`. -/
def c7Map : List (Bytes × Yaml) :=
  [(asciiBytes "name", Yaml.str (asciiBytes "p")),
   (asciiBytes "description", Yaml.int 1),
   (asciiBytes "version", Yaml.int 1),
   (asciiBytes "author", Yaml.str (asciiBytes "a"))]

/-- Package fixtures for the all-or-nothing claim: one valid package and one
whose frontmatter misses `version`. -/
def c4GoodContent : Bytes :=
  asciiBytes "---\nname: good\ndescription: d\nversion: 1\nauthor: a\n---\nbody"

def c4BadContent : Bytes :=
  asciiBytes "---\nname: bad\ndescription: d\nauthor: a\n---\nbody"

def c4Root : List Entry :=
  [Entry.dir (asciiBytes "good") [Entry.file skillMdName c4GoodContent],
   Entry.dir (asciiBytes "bad") [Entry.file skillMdName c4BadContent]]

/-- A frontmatter missing only `version` (name and description present),
with its parsed mapping. -/
def c5Content : Bytes :=
  asciiBytes "---\nname: p\ndescription: d\nauthor: a\n---\nbody"

def c5Pkg : List Entry := [Entry.file skillMdName c5Content]

def c5Map : List (Bytes × Yaml) :=
  [(asciiBytes "name", Yaml.str (asciiBytes "p")),
   (asciiBytes "description", Yaml.str (asciiBytes "d")),
   (asciiBytes "author", Yaml.str (asciiBytes "a"))]

/-- Two valid packages created in the order `foo`, `bar`. -/
def c6FooContent : Bytes :=
  asciiBytes "---\nname: foo\ndescription: d\nversion: 1\nauthor: a\n---\nx"

def c6BarContent : Bytes :=
  asciiBytes "---\nname: bar\ndescription: d\nversion: 1\nauthor: a\n---\ny"

def c6DirFoo : Entry := Entry.dir (asciiBytes "foo") [Entry.file skillMdName c6FooContent]

def c6DirBar : Entry := Entry.dir (asciiBytes "bar") [Entry.file skillMdName c6BarContent]

def c6Es : List Entry := [c6DirFoo, c6DirBar]

def c6Recs : List SkillRecord :=
  (validDirs yamlParseMini c6Es).map
    (fun d => recordOf yamlParseMini id (asciiBytes "/S") 47 d)

/-- A root listing with one stray regular file next to a package. -/
def c7WithFile : List Entry :=
  [Entry.file (asciiBytes "README.md") (asciiBytes "hi"),
   Entry.dir (asciiBytes "pkg") [Entry.file skillMdName c7Content]]

/-- A frontmatter with all four required keys whose `description` is the
YAML integer `1`, with its package and parsed mapping. -/
def c9Content : Bytes :=
  asciiBytes "---\nname: p\ndescription: 1\nversion: 1\nauthor: a\n---\nbody"

def c9Pkg : List Entry := [Entry.file skillMdName c9Content]

def c9Map : List (Bytes × Yaml) :=
  [(asciiBytes "name", Yaml.str (asciiBytes "p")),
   (asciiBytes "description", Yaml.int 1),
   (asciiBytes "version", Yaml.int 1),
   (asciiBytes "author", Yaml.str (asciiBytes "a"))]

/-- Two packages in differently named directories both declaring
`name: zzz`. -/
def c10Content₁ : Bytes :=
  asciiBytes "---\nname: zzz\ndescription: d\nversion: 1\nauthor: a\n---\nx"

def c10Content₂ : Bytes :=
  asciiBytes "---\nname: zzz\ndescription: e\nversion: 1\nauthor: a\n---\ny"

def c10Pkg₁ : List Entry := [Entry.file skillMdName c10Content₁]

def c10Pkg₂ : List Entry := [Entry.file skillMdName c10Content₂]

def c10Fm₁ : List (Bytes × Yaml) :=
  [(asciiBytes "name", Yaml.str (asciiBytes "zzz")),
   (asciiBytes "description", Yaml.str (asciiBytes "d")),
   (asciiBytes "version", Yaml.int 1),
   (asciiBytes "author", Yaml.str (asciiBytes "a"))]

def c10Fm₂ : List (Bytes × Yaml) :=
  [(asciiBytes "name", Yaml.str (asciiBytes "zzz")),
   (asciiBytes "description", Yaml.str (asciiBytes "e")),
   (asciiBytes "version", Yaml.int 1),
   (asciiBytes "author", Yaml.str (asciiBytes "a"))]

def c10R₁ : SkillRecord :=
  { id := Yaml.str (asciiBytes "zzz")
    description := asciiBytes "d"
    version := Yaml.int 1
    author := Yaml.str (asciiBytes "a")
    contentHash :=
      compute_content_hash id ((asciiBytes "/S") ++ 47 :: asciiBytes "aaa") 47 c10Pkg₁
    requiresEnv := Yaml.seq []
    hasExecutionManifest := false }

def c10R₂ : SkillRecord :=
  { id := Yaml.str (asciiBytes "zzz")
    description := asciiBytes "e"
    version := Yaml.int 1
    author := Yaml.str (asciiBytes "a")
    contentHash :=
      compute_content_hash id ((asciiBytes "/S") ++ 47 :: asciiBytes "bbb") 47 c10Pkg₂
    requiresEnv := Yaml.seq []
    hasExecutionManifest := false }

/-! ## Theorems -/

/-! ## The lexicographic byte-string order

Python compares `str` values lexicographically by code point; the Mathlib
`LinearOrder (List Nat)` (strict part `List.Lex (· < ·)`) is the same order on
the byte lists. -/
theorem bytes_lt_iff {a b : Bytes} : a < b ↔ List.Lex (· < ·) a b := Iff.rfl

theorem bytes_le_iff {a b : Bytes} : a ≤ b ↔ a = b ∨ List.Lex (· < ·) a b := Iff.rfl

theorem lex_append_left_cancel {p a b : Bytes}
    (h : List.Lex (· < ·) (p ++ a) (p ++ b)) : List.Lex (· < ·) a b := by
  induction p with
  | nil => exact h
  | cons x p ih =>
      cases h with
      | cons h => exact ih h
      | rel h => exact absurd h (lt_irrefl x)

theorem bytes_append_lt_iff {p a b : Bytes} : p ++ a < p ++ b ↔ a < b := by
  rw [bytes_lt_iff, bytes_lt_iff]
  exact ⟨lex_append_left_cancel, fun h => List.Lex.append_left _ h p⟩

theorem bytes_append_le_iff {p a b : Bytes} : p ++ a ≤ p ++ b ↔ a ≤ b := by
  rw [bytes_le_iff, bytes_le_iff, List.append_cancel_left_eq]
  exact or_congr Iff.rfl bytes_append_lt_iff

theorem bytes_cons_lt_iff {x : Nat} {a b : Bytes} : (x :: a) < (x :: b) ↔ a < b := by
  have := @bytes_append_lt_iff [x] a b
  simpa using this

theorem bytes_cons_le_iff {x : Nat} {a b : Bytes} : (x :: a) ≤ (x :: b) ↔ a ≤ b := by
  have := @bytes_append_le_iff [x] a b
  simpa using this

/-! ## Generic "sorted permutations with distinct keys are equal" lemmas -/
theorem sorted_nodup_perm_eq {α β : Type} [LinearOrder β] (k : α → β)
    {l₁ l₂ : List α} (hp : l₁.Perm l₂)
    (h₁ : l₁.Pairwise (fun a b => k a ≤ k b))
    (h₂ : l₂.Pairwise (fun a b => k a ≤ k b))
    (hnd : (l₁.map k).Nodup) : l₁ = l₂ := by
  have hnd₂ : (l₂.map k).Nodup := (hp.map k).nodup_iff.mp hnd
  have ne₁ : l₁.Pairwise (fun a b => k a ≠ k b) := List.pairwise_map.mp hnd
  have ne₂ : l₂.Pairwise (fun a b => k a ≠ k b) := List.pairwise_map.mp hnd₂
  have s₁ : l₁.Pairwise (fun a b => k a < k b) :=
    (h₁.and ne₁).imp (fun h => lt_of_le_of_ne h.1 h.2)
  have s₂ : l₂.Pairwise (fun a b => k a < k b) :=
    (h₂.and ne₂).imp (fun h => lt_of_le_of_ne h.1 h.2)
  haveI : IsAntisymm α (fun a b => k a < k b) :=
    ⟨fun _ _ h h' => absurd h' (lt_asymm h)⟩
  exact List.eq_of_perm_of_sorted hp s₁ s₂

theorem sorted_nodup_perm_eq₂ {α β γ : Type} [LinearOrder β] [LinearOrder γ]
    (k : α → β) (j : α → γ) {l₁ l₂ : List α} (hp : l₁.Perm l₂)
    (h₁ : l₁.Pairwise (fun a b => k a < k b ∨ (k a = k b ∧ j a ≤ j b)))
    (h₂ : l₂.Pairwise (fun a b => k a < k b ∨ (k a = k b ∧ j a ≤ j b)))
    (hnd : (l₁.map (fun a => (k a, j a))).Nodup) : l₁ = l₂ := by
  have hnd₂ : (l₂.map (fun a => (k a, j a))).Nodup :=
    (hp.map (fun a => (k a, j a))).nodup_iff.mp hnd
  have ne₁ : l₁.Pairwise (fun a b => (k a, j a) ≠ (k b, j b)) := List.pairwise_map.mp hnd
  have ne₂ : l₂.Pairwise (fun a b => (k a, j a) ≠ (k b, j b)) := List.pairwise_map.mp hnd₂
  have strict : ∀ a b : α, (k a < k b ∨ (k a = k b ∧ j a ≤ j b)) → (k a, j a) ≠ (k b, j b) →
      k a < k b ∨ (k a = k b ∧ j a < j b) := by
    intro a b h hne
    rcases h with h | ⟨hk, hj⟩
    · exact Or.inl h
    · refine Or.inr ⟨hk, lt_of_le_of_ne hj ?_⟩
      intro hj'; exact hne (by rw [hk, hj'])
  have s₁ := (h₁.and ne₁).imp (fun h => strict _ _ h.1 h.2)
  have s₂ := (h₂.and ne₂).imp (fun h => strict _ _ h.1 h.2)
  haveI : IsAntisymm α (fun a b => k a < k b ∨ (k a = k b ∧ j a < j b)) := by
    refine ⟨fun a b h h' => ?_⟩
    rcases h with h | ⟨hk, hj⟩ <;> rcases h' with h' | ⟨hk', hj'⟩
    · exact absurd h' (lt_asymm h)
    · rw [hk'] at h; exact absurd h (lt_irrefl _)
    · rw [hk] at h'; exact absurd h' (lt_irrefl _)
    · exact absurd hj' (lt_asymm hj)
  exact List.eq_of_perm_of_sorted hp s₁ s₂

theorem dirNames_subset_namesOf : ∀ {es : List Entry} {n : Bytes},
    n ∈ dirNames es → n ∈ namesOf es := by
  intro es
  induction es with
  | nil => intro n h; simp [dirNames] at h
  | cons e r ih =>
      intro n h
      cases e with
      | file m c => simp only [dirNames] at h; simp [namesOf, Entry.name]
                    exact Or.inr (by simpa [namesOf] using ih h)
      | dir m s =>
          simp only [dirNames, List.mem_cons] at h
          rcases h with h | h
          · simp [namesOf, Entry.name, h]
          · simp only [namesOf, List.map_cons, List.mem_cons]
            exact Or.inr (by simpa [namesOf] using ih h)

theorem fileName_mem_namesOf : ∀ {es : List Entry} {f : Bytes × Bytes},
    f ∈ filesIn es → f.1 ∈ namesOf es := by
  intro es
  induction es with
  | nil => intro f h; simp [filesIn] at h
  | cons e r ih =>
      intro f h
      cases e with
      | file m c =>
          simp only [filesIn, List.mem_cons] at h
          rcases h with h | h
          · simp [namesOf, Entry.name, h]
          · simp only [namesOf, List.map_cons, List.mem_cons]
            exact Or.inr (by simpa [namesOf] using ih h)
      | dir m s =>
          simp only [filesIn] at h
          simp only [namesOf, List.map_cons, List.mem_cons]
          exact Or.inr (by simpa [namesOf] using ih h)

theorem joinComps_ne_nil {sep : Nat} : ∀ {c : List Bytes},
    CompsOk sep c → c ≠ [] → joinComps sep c ≠ []
  | [], _, h => absurd rfl h
  | [x], hc, _ => by
      simpa [joinComps] using (hc x (by simp)).1
  | x :: y :: r, _, _ => by simp [joinComps]

theorem sep_split_unique {sep : Nat} : ∀ {a b x y : Bytes}, sep ∉ a → sep ∉ b →
    a ++ sep :: x = b ++ sep :: y → a = b ∧ x = y := by
  intro a
  induction a with
  | nil =>
      intro b x y _ hb h
      cases b with
      | nil => simpa using h
      | cons z t =>
          simp only [List.nil_append, List.cons_append, List.cons.injEq] at h
          exact absurd (h.1 ▸ List.mem_cons_self z t) hb
  | cons z t ih =>
      intro b x y ha hb h
      cases b with
      | nil =>
          simp only [List.cons_append, List.nil_append, List.cons.injEq] at h
          exact absurd (h.1 ▸ List.mem_cons_self z t) (h.1 ▸ ha)
      | cons w u =>
          simp only [List.cons_append, List.cons.injEq] at h
          obtain ⟨hzw, hrest⟩ := h
          have ha' : sep ∉ t := fun hm => ha (List.mem_cons_of_mem _ hm)
          have hb' : sep ∉ u := fun hm => hb (List.mem_cons_of_mem _ hm)
          obtain ⟨h₁, h₂⟩ := ih ha' hb' hrest
          exact ⟨by rw [hzw, h₁], h₂⟩

theorem joinComps_inj {sep : Nat} : ∀ (c₁ c₂ : List Bytes), CompsOk sep c₁ → CompsOk sep c₂ →
    joinComps sep c₁ = joinComps sep c₂ → c₁ = c₂
  | [], [], _, _, _ => rfl
  | [], [x], _, h₂, h => by
      exact absurd ((by simpa [joinComps] using h.symm : x = [])) (h₂ x (by simp)).1
  | [], x :: y :: r, _, _, h => by simp [joinComps] at h
  | [x], [], h₁, _, h => by
      exact absurd ((by simpa [joinComps] using h : x = [])) (h₁ x (by simp)).1
  | x :: y :: r, [], _, _, h => by simp [joinComps] at h
  | [x], [z], _, _, h => by simpa [joinComps] using h
  | [x], y :: z :: r, h₁, _, h => by
      simp only [joinComps] at h
      have : sep ∈ x := by rw [h]; simp
      exact absurd this (h₁ x (by simp)).2
  | x :: y :: r, [z], _, h₂, h => by
      simp only [joinComps] at h
      have : sep ∈ z := by rw [← h]; simp
      exact absurd this (h₂ z (by simp)).2
  | x :: y :: r, z :: w :: s, h₁, h₂, h => by
      simp only [joinComps] at h
      obtain ⟨hx, hrest⟩ :=
        sep_split_unique (h₁ x (by simp)).2 (h₂ z (by simp)).2 h
      have h₁' : CompsOk sep (y :: r) := fun u hu => h₁ u (List.mem_cons_of_mem _ hu)
      have h₂' : CompsOk sep (w :: s) := fun u hu => h₂ u (List.mem_cons_of_mem _ hu)
      have := joinComps_inj (y :: r) (w :: s) h₁' h₂' hrest
      rw [hx, this]

theorem framePath_inj {root : Bytes} {sep : Nat} : ∀ {c₁ c₂ : List Bytes},
    CompsOk sep c₁ → CompsOk sep c₂ →
    framePath root sep c₁ = framePath root sep c₂ → c₁ = c₂ := by
  intro c₁ c₂ h₁ h₂ h
  cases c₁ with
  | nil =>
      cases c₂ with
      | nil => rfl
      | cons z w =>
          exfalso
          simp only [framePath] at h
          have := congrArg List.length h
          simp at this
  | cons x y =>
      cases c₂ with
      | nil =>
          exfalso
          simp only [framePath] at h
          have := congrArg List.length h
          simp at this
      | cons z w =>
          simp only [framePath] at h
          have h' := List.append_cancel_left h
          exact joinComps_inj _ _ h₁ h₂ (by injection h')

theorem nil_bytes_lt {l : Bytes} (h : l ≠ []) : ([] : Bytes) < l := by
  cases l with
  | nil => exact absurd rfl h
  | cons x t => exact List.nil_lt_cons x t

theorem framePath_lt_join_lt {root : Bytes} {sep : Nat} : ∀ {c₁ c₂ : List Bytes},
    CompsOk sep c₁ → CompsOk sep c₂ →
    framePath root sep c₁ < framePath root sep c₂ →
    joinComps sep c₁ < joinComps sep c₂ := by
  intro c₁ c₂ h₁ h₂ h
  cases c₁ with
  | nil =>
      cases c₂ with
      | nil => exact absurd h (lt_irrefl _)
      | cons z w =>
          exact (by simpa [joinComps] using
            nil_bytes_lt (joinComps_ne_nil h₂ (by simp)) : joinComps sep [] < joinComps sep (z :: w))
  | cons x y =>
      cases c₂ with
      | nil =>
          exfalso
          simp only [framePath] at h
          have : root ++ (sep :: joinComps sep (x :: y)) < root ++ [] := by simpa using h
          have := bytes_append_lt_iff.mp this
          rw [bytes_lt_iff] at this
          cases this
      | cons z w =>
          simp only [framePath] at h
          have := bytes_append_lt_iff.mp h
          exact bytes_cons_lt_iff.mp this

/-! ## Structure of the walk frames and of the collected file triples -/
theorem walkSubs_comps_mem : ∀ (rel : List Bytes) (es : List Entry) (fr : Frame),
    fr ∈ walkSubs rel es → ∃ n rest, n ∈ dirNames es ∧ fr.1 = rel ++ n :: rest
  | rel, [], fr, h => absurd h (by simp [walkSubs])
  | rel, .file n c :: r, fr, h => by
      simp only [walkSubs] at h
      obtain ⟨m, rest, hm, he⟩ := walkSubs_comps_mem rel r fr h
      exact ⟨m, rest, by simp [dirNames, hm], he⟩
  | rel, .dir n s :: r, fr, h => by
      simp only [walkSubs, List.cons_append, List.mem_cons, List.mem_append] at h
      rcases h with h | h | h
      · exact ⟨n, [], by simp [dirNames], by rw [h]⟩
      · obtain ⟨m, rest, _, he⟩ := walkSubs_comps_mem (rel ++ [n]) s fr h
        refine ⟨n, m :: rest, by simp [dirNames], ?_⟩
        rw [he]; simp
      · obtain ⟨m, rest, hm, he⟩ := walkSubs_comps_mem rel r fr h
        exact ⟨m, rest, by simp [dirNames, hm], he⟩
termination_by _ es _ _ => sizeOf es

theorem walkSubs_comps_pairwise {sep : Nat} : ∀ (rel : List Bytes) (es : List Entry),
    Wf sep es → (walkSubs rel es).Pairwise (fun f g : Frame => f.1 ≠ g.1)
  | _, [], _ => by simp [walkSubs]
  | rel, .file n c :: r, hwf => by
      simp only [walkSubs]
      simp only [Wf] at hwf
      exact walkSubs_comps_pairwise rel r hwf.2.2
  | rel, .dir n s :: r, hwf => by
      simp only [Wf] at hwf
      obtain ⟨hn, hnot, hs, hr⟩ := hwf
      simp only [walkSubs, List.cons_append]
      rw [List.pairwise_cons]
      constructor
      · intro g hg
        simp only [List.mem_append] at hg
        rcases hg with hg | hg
        · obtain ⟨m, rest, _, he⟩ := walkSubs_comps_mem (rel ++ [n]) s g hg
          intro hc
          rw [he] at hc
          have := congrArg List.length hc
          simp at this
        · obtain ⟨m, rest, hm, he⟩ := walkSubs_comps_mem rel r g hg
          intro hc
          rw [he] at hc
          have hc' : rel ++ [n] = rel ++ m :: rest := hc
          have h' : [n] = m :: rest := List.append_cancel_left hc'
          have : m = n := by injection h'.symm
          exact hnot (this ▸ dirNames_subset_namesOf hm)
      · rw [List.pairwise_append]
        refine ⟨walkSubs_comps_pairwise (rel ++ [n]) s hs,
                walkSubs_comps_pairwise rel r hr, ?_⟩
        intro a ha b hb
        obtain ⟨m₁, r₁, _, he₁⟩ := walkSubs_comps_mem (rel ++ [n]) s a ha
        obtain ⟨m₂, r₂, hm₂, he₂⟩ := walkSubs_comps_mem rel r b hb
        intro hc
        rw [he₁, he₂] at hc
        rw [List.append_assoc] at hc
        have h' : ([n] ++ m₁ :: r₁ : List Bytes) = m₂ :: r₂ := List.append_cancel_left hc
        have : n = m₂ := by
          simp only [List.cons_append, List.cons.injEq] at h'
          exact h'.1
        exact hnot (this ▸ dirNames_subset_namesOf hm₂)
termination_by _ es _ => sizeOf es

theorem walkSubs_compsOk {sep : Nat} : ∀ (rel : List Bytes) (es : List Entry),
    Wf sep es → CompsOk sep rel → ∀ fr ∈ walkSubs rel es, CompsOk sep fr.1
  | _, [], _, _, fr, h => absurd h (by simp [walkSubs])
  | rel, .file n c :: r, hwf, hrel, fr, h => by
      simp only [walkSubs] at h
      simp only [Wf] at hwf
      exact walkSubs_compsOk rel r hwf.2.2 hrel fr h
  | rel, .dir n s :: r, hwf, hrel, fr, h => by
      simp only [Wf] at hwf
      obtain ⟨hn, _, hs, hr⟩ := hwf
      have hrel' : CompsOk sep (rel ++ [n]) := by
        intro x hx
        simp only [List.mem_append, List.mem_singleton] at hx
        rcases hx with hx | rfl
        · exact hrel x hx
        · exact hn
      simp only [walkSubs, List.cons_append, List.mem_cons, List.mem_append] at h
      rcases h with h | h | h
      · rw [h]; exact hrel'
      · exact walkSubs_compsOk (rel ++ [n]) s hs hrel' fr h
      · exact walkSubs_compsOk rel r hr hrel fr h
termination_by _ es _ _ _ _ => sizeOf es

theorem collect_comps_mem : ∀ (rel : List Bytes) (es : List Entry)
    (t : List Bytes × Bytes × Bytes), t ∈ collectFiles rel es →
    (t.1 = rel ∧ (t.2.1, t.2.2) ∈ filesIn es) ∨
      ∃ n rest, n ∈ dirNames es ∧ t.1 = rel ++ n :: rest
  | rel, [], t, h => absurd h (by simp [collectFiles])
  | rel, .file n c :: r, t, h => by
      simp only [collectFiles, List.mem_cons] at h
      rcases h with h | h
      · subst h
        exact Or.inl ⟨rfl, by simp [filesIn]⟩
      · rcases collect_comps_mem rel r t h with ⟨h₁, h₂⟩ | ⟨m, rest, hm, he⟩
        · exact Or.inl ⟨h₁, by simp [filesIn, h₂]⟩
        · exact Or.inr ⟨m, rest, by simp [dirNames, hm], he⟩
  | rel, .dir n s :: r, t, h => by
      simp only [collectFiles, List.mem_append] at h
      rcases h with h | h
      · rcases collect_comps_mem (rel ++ [n]) s t h with ⟨h₁, _⟩ | ⟨m, rest, _, he⟩
        · exact Or.inr ⟨n, [], by simp [dirNames], by rw [h₁]⟩
        · refine Or.inr ⟨n, m :: rest, by simp [dirNames], ?_⟩
          rw [he]; simp
      · rcases collect_comps_mem rel r t h with ⟨h₁, h₂⟩ | ⟨m, rest, hm, he⟩
        · exact Or.inl ⟨h₁, by simp [filesIn, h₂]⟩
        · exact Or.inr ⟨m, rest, by simp [dirNames, hm], he⟩
termination_by _ es _ _ => sizeOf es

theorem collect_nameOk {sep : Nat} : ∀ (rel : List Bytes) (es : List Entry), Wf sep es →
    ∀ t ∈ collectFiles rel es, NameOk sep t.2.1
  | _, [], _, t, h => absurd h (by simp [collectFiles])
  | rel, .file n c :: r, hwf, t, h => by
      simp only [Wf] at hwf
      simp only [collectFiles, List.mem_cons] at h
      rcases h with h | h
      · subst h; exact hwf.1
      · exact collect_nameOk rel r hwf.2.2 t h
  | rel, .dir n s :: r, hwf, t, h => by
      simp only [Wf] at hwf
      simp only [collectFiles, List.mem_append] at h
      rcases h with h | h
      · exact collect_nameOk (rel ++ [n]) s hwf.2.2.1 t h
      · exact collect_nameOk rel r hwf.2.2.2 t h
termination_by _ es _ _ _ => sizeOf es

theorem collect_compsOk {sep : Nat} : ∀ (rel : List Bytes) (es : List Entry),
    Wf sep es → CompsOk sep rel → ∀ t ∈ collectFiles rel es, CompsOk sep t.1
  | _, [], _, _, t, h => absurd h (by simp [collectFiles])
  | rel, .file n c :: r, hwf, hrel, t, h => by
      simp only [Wf] at hwf
      simp only [collectFiles, List.mem_cons] at h
      rcases h with h | h
      · subst h; exact hrel
      · exact collect_compsOk rel r hwf.2.2 hrel t h
  | rel, .dir n s :: r, hwf, hrel, t, h => by
      simp only [Wf] at hwf
      obtain ⟨hn, _, hs, hr⟩ := hwf
      have hrel' : CompsOk sep (rel ++ [n]) := by
        intro x hx
        simp only [List.mem_append, List.mem_singleton] at hx
        rcases hx with hx | rfl
        · exact hrel x hx
        · exact hn
      simp only [collectFiles, List.mem_append] at h
      rcases h with h | h
      · exact collect_compsOk (rel ++ [n]) s hs hrel' t h
      · exact collect_compsOk rel r hr hrel t h
termination_by _ es _ _ _ _ => sizeOf es

/-- Under well-formedness, the `(directory components, file name)` keys of the
collected file triples are pairwise distinct. -/
theorem collect_keys_pairwise {sep : Nat} : ∀ (rel : List Bytes) (es : List Entry),
    Wf sep es → (collectFiles rel es).Pairwise
      (fun t₁ t₂ => ¬(t₁.1 = t₂.1 ∧ t₁.2.1 = t₂.2.1))
  | _, [], _ => by simp [collectFiles]
  | rel, .file n c :: r, hwf => by
      simp only [Wf] at hwf
      obtain ⟨hn, hnot, hr⟩ := hwf
      simp only [collectFiles]
      rw [List.pairwise_cons]
      refine ⟨?_, collect_keys_pairwise rel r hr⟩
      intro t ht hc
      rcases collect_comps_mem rel r t ht with ⟨h₁, h₂⟩ | ⟨m, rest, _, he⟩
      · have hname : (rel, n, c).2.1 = t.2.1 := hc.2
        have : t.2.1 ∈ namesOf r := fileName_mem_namesOf h₂
        rw [← hname] at this
        exact hnot this
      · rw [he] at hc
        have := congrArg List.length hc.1
        simp at this
  | rel, .dir n s :: r, hwf => by
      simp only [Wf] at hwf
      obtain ⟨hn, hnot, hs, hr⟩ := hwf
      simp only [collectFiles]
      rw [List.pairwise_append]
      refine ⟨collect_keys_pairwise (rel ++ [n]) s hs,
              collect_keys_pairwise rel r hr, ?_⟩
      intro a ha b hb hc
      have ha' : ∃ u, a.1 = rel ++ n :: u := by
        rcases collect_comps_mem (rel ++ [n]) s a ha with ⟨h₁, _⟩ | ⟨m, rest, _, he⟩
        · exact ⟨[], h₁⟩
        · exact ⟨m :: rest, by rw [he]; simp⟩
      obtain ⟨u, hu⟩ := ha'
      rcases collect_comps_mem rel r b hb with ⟨h₁, _⟩ | ⟨m, rest, hm, he⟩
      · rw [hu, h₁] at hc
        have := congrArg List.length hc.1
        simp at this
      · rw [hu, he] at hc
        have h' : (n :: u : List Bytes) = m :: rest := List.append_cancel_left hc.1
        have : n = m := by injection h'
        exact hnot (this ▸ dirNames_subset_namesOf hm)
termination_by _ es _ => sizeOf es

/-! ## The walked files are a permutation of the collected files -/
theorem perm_flatten {α : Type} : ∀ {L₁ L₂ : List (List α)},
    L₁.Perm L₂ → L₁.flatten.Perm L₂.flatten := by
  intro L₁ L₂ hp
  induction hp with
  | nil => exact List.Perm.refl _
  | cons x _ ih => simpa using ih.append_left x
  | swap x y l =>
      simp only [List.flatten_cons]
      exact List.perm_append_comm_assoc y x l.flatten
  | trans _ _ ih₁ ih₂ => exact ih₁.trans ih₂

theorem walk_collect_perm : ∀ (rel : List Bytes) (es : List Entry),
    ((filesIn es).map (fun f => (rel, f.1, f.2)) ++
      (walkSubs rel es).flatMap plainTriples).Perm (collectFiles rel es)
  | rel, [] => by simp [walkSubs, collectFiles, filesIn]
  | rel, .file n c :: r => by
      simp only [filesIn, walkSubs, collectFiles, List.map_cons, List.cons_append]
      exact (walk_collect_perm rel r).cons (rel, n, c)
  | rel, .dir n s :: r => by
      simp only [filesIn, walkSubs, collectFiles, List.cons_append, List.flatMap_cons,
        List.flatMap_append]
      have ihs := walk_collect_perm (rel ++ [n]) s
      have ihr := walk_collect_perm rel r
      have hplain : plainTriples (rel ++ [n], filesIn s) =
          (filesIn s).map (fun f => (rel ++ [n], f.1, f.2)) := rfl
      rw [hplain]
      refine (List.perm_append_comm_assoc _ _ _).trans ?_
      refine (List.Perm.append_left _ (List.perm_append_comm_assoc _ _ _)).trans ?_
      rw [← List.append_assoc]
      exact ihs.append ihr
termination_by _ es => sizeOf es

theorem codeTriples_perm_collect (root : Bytes) (sep : Nat) (es : List Entry) :
    (codeTriples root sep es).Perm (collectFiles [] es) := by
  unfold codeTriples
  have h₁ : ((sortFrames root sep (osWalk es)).flatMap frameTriples).Perm
      ((osWalk es).flatMap frameTriples) := by
    rw [List.flatMap_def, List.flatMap_def]
    exact perm_flatten ((List.perm_insertionSort _ _).map frameTriples)
  have h₂ : ((osWalk es).flatMap frameTriples).Perm
      ((osWalk es).flatMap plainTriples) := by
    refine List.Perm.flatMap_left _ (fun fr _ => ?_)
    exact (List.perm_insertionSort _ fr.2).map _
  have h₃ : ((osWalk es).flatMap plainTriples).Perm (collectFiles [] es) := by
    have := walk_collect_perm [] es
    simpa [osWalk, plainTriples, List.flatMap_cons] using this
  exact (h₁.trans h₂).trans h₃

theorem sortFiles_sorted (l : List (Bytes × Bytes)) :
    (sortFiles l).Pairwise (fun a b => a.1 ≤ b.1) := by
  haveI : IsTotal (Bytes × Bytes) (fun a b => a.1 ≤ b.1) := ⟨fun a b => le_total _ _⟩
  haveI : IsTrans (Bytes × Bytes) (fun a b => a.1 ≤ b.1) :=
    ⟨fun _ _ _ h h' => le_trans h h'⟩
  exact List.sorted_insertionSort _ l

theorem sortFrames_sorted (root : Bytes) (sep : Nat) (L : List Frame) :
    (sortFrames root sep L).Pairwise
      (fun f g => framePath root sep f.1 ≤ framePath root sep g.1) := by
  haveI : IsTotal Frame (fun f g => framePath root sep f.1 ≤ framePath root sep g.1) :=
    ⟨fun a b => le_total _ _⟩
  haveI : IsTrans Frame (fun f g => framePath root sep f.1 ≤ framePath root sep g.1) :=
    ⟨fun _ _ _ h h' => le_trans h h'⟩
  exact List.sorted_insertionSort _ L

theorem osWalk_comps_pairwise {sep : Nat} {es : List Entry} (hwf : Wf sep es) :
    (osWalk es).Pairwise (fun f g : Frame => f.1 ≠ g.1) := by
  unfold osWalk
  rw [List.pairwise_cons]
  refine ⟨?_, walkSubs_comps_pairwise [] es hwf⟩
  intro g hg
  obtain ⟨m, rest, _, he⟩ := walkSubs_comps_mem [] es g hg
  intro hc
  rw [he] at hc
  simp at hc

theorem osWalk_compsOk {sep : Nat} {es : List Entry} (hwf : Wf sep es) :
    ∀ fr ∈ osWalk es, CompsOk sep fr.1 := by
  intro fr hfr
  unfold osWalk at hfr
  rw [List.mem_cons] at hfr
  rcases hfr with rfl | hfr
  · intro x hx; simp at hx
  · exact walkSubs_compsOk [] es hwf (fun x hx => by simp at hx) fr hfr

theorem codeTriples_pairwise {root : Bytes} {sep : Nat} {es : List Entry}
    (hwf : Wf sep es) : (codeTriples root sep es).Pairwise (tripleLe sep) := by
  unfold codeTriples
  rw [List.flatMap_def, List.pairwise_flatten]
  constructor
  · intro l hl
    rw [List.mem_map] at hl
    obtain ⟨fr, _, rfl⟩ := hl
    unfold frameTriples
    rw [List.pairwise_map]
    exact (sortFiles_sorted fr.2).imp (fun h => Or.inr ⟨rfl, h⟩)
  · rw [List.pairwise_map]
    have hsorted := sortFrames_sorted root sep (osWalk es)
    have hne : (sortFrames root sep (osWalk es)).Pairwise (fun f g : Frame => f.1 ≠ g.1) := by
      refine (List.Perm.pairwise_iff (fun h => fun e => h e.symm)
        (List.perm_insertionSort _ _)).mpr ?_
      exact osWalk_comps_pairwise hwf
    have hcomb := hsorted.and hne
    refine hcomb.imp_of_mem ?_
    intro f g hf hg hfg
    have hokf : CompsOk sep f.1 :=
      osWalk_compsOk hwf f ((List.mem_insertionSort _).mp hf)
    have hokg : CompsOk sep g.1 :=
      osWalk_compsOk hwf g ((List.mem_insertionSort _).mp hg)
    intro x hx y hy
    unfold frameTriples at hx hy
    rw [List.mem_map] at hx hy
    obtain ⟨fx, _, rfl⟩ := hx
    obtain ⟨fy, _, rfl⟩ := hy
    have hlt : framePath root sep f.1 < framePath root sep g.1 :=
      lt_of_le_of_ne hfg.1 (fun he => hfg.2 (framePath_inj hokf hokg he))
    exact Or.inl (framePath_lt_join_lt hokf hokg hlt)

theorem collect_joined_keys_nodup {sep : Nat} {es : List Entry} (hwf : Wf sep es) :
    ((collectFiles [] es).map (fun t => (joinComps sep t.1, t.2.1))).Nodup := by
  show ((collectFiles [] es).map (fun t => (joinComps sep t.1, t.2.1))).Pairwise (· ≠ ·)
  rw [List.pairwise_map]
  have hk := collect_keys_pairwise [] es hwf
  refine hk.imp_of_mem ?_
  intro t₁ t₂ h₁ h₂ hne he
  have hok₁ : CompsOk sep t₁.1 :=
    collect_compsOk [] es hwf (fun x hx => by simp at hx) t₁ h₁
  have hok₂ : CompsOk sep t₂.1 :=
    collect_compsOk [] es hwf (fun x hx => by simp at hx) t₂ h₂
  have hj : joinComps sep t₁.1 = joinComps sep t₂.1 := congrArg Prod.fst he
  have hn : t₁.2.1 = t₂.2.1 := congrArg Prod.snd he
  exact hne ⟨joinComps_inj _ _ hok₁ hok₂ hj, hn⟩

theorem codeTriples_eq_sorted_collect {root : Bytes} {sep : Nat} {es : List Entry}
    (hwf : Wf sep es) :
    codeTriples root sep es = (collectFiles [] es).insertionSort (tripleLe sep) := by
  have hperm : (codeTriples root sep es).Perm
      ((collectFiles [] es).insertionSort (tripleLe sep)) :=
    (codeTriples_perm_collect root sep es).trans (List.perm_insertionSort _ _).symm
  have hnd : ((codeTriples root sep es).map
      (fun t => (joinComps sep t.1, t.2.1))).Nodup := by
    refine ((codeTriples_perm_collect root sep es).map _).nodup_iff.mpr ?_
    exact collect_joined_keys_nodup hwf
  have hs₂ : ((collectFiles [] es).insertionSort (tripleLe sep)).Pairwise (tripleLe sep) :=
    List.sorted_insertionSort _ _
  have h₁ := @codeTriples_pairwise root sep es hwf
  unfold tripleLe at h₁ hs₂
  exact sorted_nodup_perm_eq₂ (fun t => joinComps sep t.1) (fun t => t.2.1)
    hperm h₁ hs₂ hnd

theorem hashInput_eq_flatMap (root : Bytes) (sep : Nat) (es : List Entry) :
    hashInput root sep es =
      (codeTriples root sep es).flatMap (fun t => relPath sep t.1 t.2.1 ++ t.2.2) := by
  unfold hashInput codeTriples
  rw [List.flatMap_assoc]
  have h : ∀ fr : Frame,
      (frameTriples fr).flatMap (fun t => relPath sep t.1 t.2.1 ++ t.2.2) =
        (sortFiles fr.2).flatMap (fun f => relPath sep fr.1 f.1 ++ f.2) := by
    intro fr; unfold frameTriples; rw [List.flatMap_map]
  simp only [h]

/-- The central refinement theorem: on a well-formed tree the hasher input is
the concatenation, over all files sorted by (joined directory path, name), of
relative path followed by content. -/
theorem hashInput_eq_amendedStream (root : Bytes) (sep : Nat) (es : List Entry)
    (hwf : Wf sep es) : hashInput root sep es = amendedStream sep es := by
  rw [hashInput_eq_flatMap, codeTriples_eq_sorted_collect hwf, amendedStream]

/-- Claim C1, as stated, is false: `compute_content_hash` does not feed the
hasher in "directories in lexicographic order at every level" order.  On
`c1Tree` (directories `a`, `a-b`, `a/z`) the code orders by full path string,
putting `a-b`'s file before `a/z`'s file, while the claimed per-level order
puts `a/z`'s file first; the two streams differ, so with the identity digest
the returned fingerprint is not `"sha256:" ++ digest(claimed stream)`. -/
theorem C1_counterexample :
    compute_content_hash id [] 47 c1Tree ≠ sha256Tag ++ id (claimedStream c1Tree) := by
  have h₁ : hashInput [] 47 c1Tree = asciiBytes "a-b/f1a/z/g2" := by
    simp only [c1Tree, hashInput, osWalk, walkSubs, filesIn]; decide
  have h₂ : claimedStream c1Tree = asciiBytes "a/z/g2a-b/f1" := by
    simp only [c1Tree, claimedStream, collectFiles]; decide
  unfold compute_content_hash
  rw [h₁, h₂]
  decide

/-- Claim C1 (amended): on every well-formed package tree,
`compute_content_hash` returns `"sha256:" ++ digest(stream)` where the stream
feeds, for every file in the subtree, first the file's path relative to the
package root (joined with the host separator), then the file's raw content,
with files ordered by joined directory path string (the order of the sorted
`os.walk` triples), and by file name within one directory. -/
theorem C1_amended (H : Bytes → Bytes) (root : Bytes) (sep : Nat)
    (es : List Entry) (hwf : Wf sep es) :
    compute_content_hash H root sep es = sha256Tag ++ H (amendedStream sep es) := by
  unfold compute_content_hash
  rw [hashInput_eq_amendedStream root sep es hwf]

/-- Witness for `C1_amended` at a concrete well-formed tree. -/
theorem C1_amended_witness :
    Wf 47 c1Tree ∧
      compute_content_hash id [] 47 c1Tree = sha256Tag ++ id (amendedStream 47 c1Tree) := by
  have hwf : Wf 47 c1Tree := by
    simp only [c1Tree, Wf, NameOk, namesOf, Entry.name]; decide
  exact ⟨hwf, C1_amended id [] 47 c1Tree hwf⟩

theorem collect_cons (rel : List Bytes) (e : Entry) (t : List Entry) :
    collectFiles rel (e :: t) = entryBlock rel e ++ collectFiles rel t := by
  cases e <;> simp [collectFiles, entryBlock]

theorem collect_perm_of_perm : ∀ {es₁ es₂ : List Entry}, es₁.Perm es₂ →
    ∀ rel, (collectFiles rel es₁).Perm (collectFiles rel es₂) := by
  intro es₁ es₂ hp
  induction hp with
  | nil => intro rel; exact List.Perm.refl _
  | cons e _ ih =>
      intro rel
      rw [collect_cons, collect_cons]
      exact (ih rel).append_left _
  | swap x y l =>
      intro rel
      rw [collect_cons, collect_cons, collect_cons, collect_cons]
      rw [← List.append_assoc, ← List.append_assoc]
      exact (List.perm_append_comm.append_right _)
  | trans _ _ ih₁ ih₂ => intro rel; exact (ih₁ rel).trans (ih₂ rel)

theorem collect_canonMap_perm : ∀ (rel : List Bytes) (es : List Entry),
    (collectFiles rel (canonMap es)).Perm (collectFiles rel es)
  | _, [] => by simp [canonMap]
  | rel, .file n c :: r => by
      simp only [canonMap, collectFiles]
      exact (collect_canonMap_perm rel r).cons _
  | rel, .dir n s :: r => by
      simp only [canonMap, collectFiles]
      refine List.Perm.append ?_ (collect_canonMap_perm rel r)
      refine (collect_perm_of_perm (List.perm_insertionSort _ _) _).trans ?_
      exact collect_canonMap_perm (rel ++ [n]) s
termination_by _ es => sizeOf es

theorem collect_canonTree_perm (rel : List Bytes) (es : List Entry) :
    (collectFiles rel (canonTree es)).Perm (collectFiles rel es) :=
  (collect_perm_of_perm (List.perm_insertionSort _ _) rel).trans
    (collect_canonMap_perm rel es)

/-- Claim C2: `compute_content_hash` is deterministic — two trees presenting
the same directories and files, enumerated by the filesystem in arbitrarily
different orders (same canonical form), yield bit-identical fingerprints. -/
theorem C2_determinism (H : Bytes → Bytes) (root : Bytes) (sep : Nat)
    (es₁ es₂ : List Entry) (h₁ : Wf sep es₁) (h₂ : Wf sep es₂)
    (hc : canonTree es₁ = canonTree es₂) :
    compute_content_hash H root sep es₁ = compute_content_hash H root sep es₂ := by
  unfold compute_content_hash
  rw [hashInput_eq_amendedStream root sep es₁ h₁, hashInput_eq_amendedStream root sep es₂ h₂]
  unfold amendedStream
  have hperm : ((collectFiles [] es₁).insertionSort (tripleLe sep)).Perm
      ((collectFiles [] es₂).insertionSort (tripleLe sep)) := by
    refine (List.perm_insertionSort _ _).trans ?_
    refine ((collect_canonTree_perm [] es₁).symm.trans ?_).trans
      (List.perm_insertionSort _ _).symm
    rw [hc]
    exact collect_canonTree_perm [] es₂
  have hs₁ : ((collectFiles [] es₁).insertionSort (tripleLe sep)).Pairwise (tripleLe sep) :=
    List.sorted_insertionSort _ _
  have hs₂ : ((collectFiles [] es₂).insertionSort (tripleLe sep)).Pairwise (tripleLe sep) :=
    List.sorted_insertionSort _ _
  have hnd : (((collectFiles [] es₁).insertionSort (tripleLe sep)).map
      (fun t => (joinComps sep t.1, t.2.1))).Nodup := by
    refine ((List.perm_insertionSort (tripleLe sep) _).map _).nodup_iff.mpr ?_
    exact collect_joined_keys_nodup h₁
  unfold tripleLe at hs₁ hs₂
  have := sorted_nodup_perm_eq₂ (fun t => joinComps sep t.1) (fun t => t.2.1)
    hperm hs₁ hs₂ hnd
  rw [this]

/-- Witness for `C2_determinism`: the same two-file, one-subdirectory package
enumerated in two different orders hashes identically. -/
theorem C2_determinism_witness :
    Wf 47 [.file (asciiBytes "a") (asciiBytes "1"),
           .dir (asciiBytes "d") [.file (asciiBytes "b") (asciiBytes "2")]] ∧
    Wf 47 [.dir (asciiBytes "d") [.file (asciiBytes "b") (asciiBytes "2")],
           .file (asciiBytes "a") (asciiBytes "1")] ∧
    compute_content_hash id (asciiBytes "/r") 47
        [.file (asciiBytes "a") (asciiBytes "1"),
         .dir (asciiBytes "d") [.file (asciiBytes "b") (asciiBytes "2")]] =
      compute_content_hash id (asciiBytes "/r") 47
        [.dir (asciiBytes "d") [.file (asciiBytes "b") (asciiBytes "2")],
         .file (asciiBytes "a") (asciiBytes "1")] := by
  have h₁ : Wf 47 [.file (asciiBytes "a") (asciiBytes "1"),
      .dir (asciiBytes "d") [.file (asciiBytes "b") (asciiBytes "2")]] := by
    simp only [Wf, NameOk, namesOf, Entry.name]; decide
  have h₂ : Wf 47 [.dir (asciiBytes "d") [.file (asciiBytes "b") (asciiBytes "2")],
      .file (asciiBytes "a") (asciiBytes "1")] := by
    simp only [Wf, NameOk, namesOf, Entry.name]; decide
  refine ⟨h₁, h₂, C2_determinism id (asciiBytes "/r") 47 _ _ h₁ h₂ ?_⟩
  simp only [canonTree, canonMap]
  rfl

/-- Claim C3, as stated, is false: renaming a file need not change the
fingerprint.  Renaming `ab` (content `"b"`) to `ba` in a directory that also
holds `abbab` (empty) leaves the exact hasher input byte stream — hence the
SHA-256 fingerprint — unchanged: both trees feed `"abbabbab"`.  Both trees
are well-formed and differ (the file was really renamed). -/
theorem C3_counterexample :
    editAt [] (renameIn (asciiBytes "ab") (asciiBytes "ba")) c3TreeA = c3TreeB ∧
    Wf 47 c3TreeA ∧ Wf 47 c3TreeB ∧ namesOf c3TreeA ≠ namesOf c3TreeB ∧
    compute_content_hash id [] 47 c3TreeA = compute_content_hash id [] 47 c3TreeB := by
  refine ⟨by simp only [editAt]; rfl, ?_, ?_, by decide, ?_⟩
  · simp only [c3TreeA, Wf, NameOk, namesOf, Entry.name]; decide
  · simp only [c3TreeB, Wf, NameOk, namesOf, Entry.name]; decide
  · have hA : hashInput [] 47 c3TreeA = asciiBytes "abbabbab" := by
      simp only [c3TreeA, hashInput, osWalk, walkSubs, filesIn]; decide
    have hB : hashInput [] 47 c3TreeB = asciiBytes "abbabbab" := by
      simp only [c3TreeB, hashInput, osWalk, walkSubs, filesIn]; decide
    unfold compute_content_hash
    rw [hA, hB]

/-! ## How the edits act on the flat file view -/
theorem collect_comps_shape {rel : List Bytes} {m : Bytes} {s : List Entry}
    {t : List Bytes × Bytes × Bytes} (ht : t ∈ collectFiles (rel ++ [m]) s) :
    ∃ u, t.1 = rel ++ m :: u := by
  rcases collect_comps_mem _ _ _ ht with ⟨h₁, _⟩ | ⟨x, u, _, he⟩
  · exact ⟨[], by rw [h₁]⟩
  · exact ⟨x :: u, by rw [he]; simp⟩

theorem map_eq_self_of_eq {α : Type} {f : α → α} : ∀ {l : List α},
    (∀ a ∈ l, f a = a) → l.map f = l := by
  intro l h
  induction l with
  | nil => rfl
  | cons x t ih =>
      simp only [List.map_cons]
      rw [h x (by simp), ih (fun a ha => h a (by simp [ha]))]

theorem mapFiles_nil (g : Bytes × Bytes → Bytes × Bytes) : mapFiles g [] = [] := rfl

theorem mapFiles_cons_file (g : Bytes × Bytes → Bytes × Bytes) (n c : Bytes)
    (r : List Entry) :
    mapFiles g (.file n c :: r) = .file (g (n, c)).1 (g (n, c)).2 :: mapFiles g r := rfl

theorem mapFiles_cons_dir (g : Bytes × Bytes → Bytes × Bytes) (m : Bytes)
    (s : List Entry) (r : List Entry) :
    mapFiles g (.dir m s :: r) = .dir m s :: mapFiles g r := rfl

theorem collect_mapFiles (g : Bytes × Bytes → Bytes × Bytes) :
    ∀ (es : List Entry) (rel : List Bytes),
    collectFiles rel (mapFiles g es) =
      (collectFiles rel es).map (fun t => if t.1 = rel then (t.1, g t.2) else t) := by
  intro es
  induction es with
  | nil => intro rel; simp [mapFiles_nil, collectFiles]
  | cons e r ih =>
      intro rel
      cases e with
      | file n c =>
          rw [mapFiles_cons_file]
          simp only [collectFiles, List.map_cons, ih rel]
          congr 1
      | dir m s =>
          rw [mapFiles_cons_dir]
          simp only [collectFiles, List.map_append, ih rel]
          congr 1
          refine Eq.symm (map_eq_self_of_eq ?_)
          intro t ht
          obtain ⟨u, hu⟩ := collect_comps_shape ht
          rw [if_neg]
          intro hc
          rw [hu] at hc
          have := congrArg List.length hc
          simp at this

theorem collect_editAt_mapFiles (g : Bytes × Bytes → Bytes × Bytes) :
    ∀ (p : List Bytes) (es : List Entry) (rel : List Bytes),
    collectFiles rel (editAt p (mapFiles g) es) =
      (collectFiles rel es).map
        (fun t => if t.1 = rel ++ p then (t.1, g t.2) else t)
  | [], es, rel => by
      simp only [editAt, List.append_nil]
      exact collect_mapFiles g es rel
  | q :: p, [], rel => by simp [editAt, collectFiles]
  | q :: p, .file m c :: rest, rel => by
      simp only [editAt, collectFiles, List.map_cons]
      rw [collect_editAt_mapFiles g (q :: p) rest rel]
      rw [if_neg]
      intro hc
      have := congrArg List.length hc
      simp at this
  | q :: p, .dir m s :: rest, rel => by
      by_cases hmq : m = q
      · subst hmq
        simp only [editAt]
        rw [if_true]
        simp only [collectFiles, List.map_append]
        rw [collect_editAt_mapFiles g p s (rel ++ [m]),
            collect_editAt_mapFiles g (m :: p) rest rel]
        congr 1
        refine List.map_congr_left ?_
        intro t _
        rw [show (rel ++ [m]) ++ p = rel ++ m :: p by simp]
      · simp only [editAt]
        rw [if_neg hmq]
        simp only [collectFiles, List.map_append]
        rw [collect_editAt_mapFiles g (q :: p) rest rel]
        congr 1
        refine Eq.symm (map_eq_self_of_eq ?_)
        intro t ht
        obtain ⟨u, hu⟩ := collect_comps_shape ht
        rw [if_neg]
        intro hc
        rw [hu] at hc
        have := List.append_cancel_left hc
        have : m = q := by injection this
        exact hmq this
termination_by p es _ => (sizeOf es, sizeOf p)

theorem collect_append : ∀ (rel : List Bytes) (es₁ es₂ : List Entry),
    collectFiles rel (es₁ ++ es₂) = collectFiles rel es₁ ++ collectFiles rel es₂
  | _, [], _ => by simp [collectFiles]
  | rel, .file n c :: r, es₂ => by
      simp only [List.cons_append, collectFiles, collect_append rel r es₂]
  | rel, .dir n s :: r, es₂ => by
      simp only [List.cons_append, collectFiles, collect_append rel r es₂,
        List.append_assoc]
termination_by _ es₁ _ => sizeOf es₁

/-- When no directory named `q` is present, `editAt (q :: p)` is the
identity. -/
theorem editAt_no_dir : ∀ (q : Bytes) (p : List Bytes) (f : List Entry → List Entry)
    (es : List Entry), (∀ s, Entry.dir q s ∉ es) → editAt (q :: p) f es = es := by
  intro q p f es
  induction es with
  | nil => intro _; simp [editAt]
  | cons e r ih =>
      intro h
      cases e with
      | file m c =>
          simp only [editAt]
          rw [ih (fun s hs => h s (List.mem_cons_of_mem _ hs))]
      | dir m s =>
          have hmq : m ≠ q := by
            intro hc; subst hc
            exact h s (List.mem_cons_self _ _)
          simp only [editAt, if_neg hmq]
          rw [ih (fun s hs => h s (List.mem_cons_of_mem _ hs))]

theorem dir_mem_namesOf {q : Bytes} {s : List Entry} {es : List Entry}
    (h : Entry.dir q s ∈ es) : q ∈ namesOf es := by
  simp only [namesOf, List.mem_map]
  exact ⟨.dir q s, h, rfl⟩

theorem collect_editAt_addFile {sep : Nat} (n c : Bytes) :
    ∀ (p : List Bytes) (es : List Entry) (rel : List Bytes), Wf sep es → DirPath p es →
    (collectFiles rel (editAt p (addFileIn n c) es)).Perm
      ((rel ++ p, n, c) :: collectFiles rel es)
  | [], es, rel, _, _ => by
      simp only [editAt, addFileIn, collect_append, collectFiles, List.append_nil]
      exact (List.perm_append_comm).trans (by simp [collectFiles])
  | q :: p, [], rel, _, hp => by
      exfalso
      obtain ⟨s, hs, _⟩ := hp
      simp at hs
  | q :: p, .file m c' :: rest, rel, hwf, hp => by
      simp only [Wf] at hwf
      have hp' : DirPath (q :: p) rest := by
        obtain ⟨s, hs, hd⟩ := hp
        rcases List.mem_cons.mp hs with h | h
        · exact absurd h (by simp)
        · exact ⟨s, h, hd⟩
      simp only [editAt, collectFiles]
      refine ((collect_editAt_addFile n c (q :: p) rest rel hwf.2.2 hp').cons _).trans ?_
      exact List.Perm.swap _ _ _
  | q :: p, .dir m s :: rest, rel, hwf, hp => by
      simp only [Wf] at hwf
      obtain ⟨hn, hnot, hws, hwr⟩ := hwf
      by_cases hmq : m = q
      · subst hmq
        have hps : DirPath p s := by
          obtain ⟨s', hs', hd⟩ := hp
          rcases List.mem_cons.mp hs' with h | h
          · injection h with _ h'; exact h' ▸ hd
          · exact absurd (dir_mem_namesOf h) hnot
        simp only [editAt]
        rw [if_true]
        simp only [collectFiles]
        rw [editAt_no_dir m p _ rest (fun s' hs' => hnot (dir_mem_namesOf hs'))]
        refine ((collect_editAt_addFile n c p s (rel ++ [m]) hws hps).append_right
          (collectFiles rel rest)).trans ?_
        exact List.Perm.of_eq (by simp)
      · have hp' : DirPath (q :: p) rest := by
          obtain ⟨s', hs', hd⟩ := hp
          rcases List.mem_cons.mp hs' with h | h
          · exact absurd (by injection h with h' _; exact h'.symm) hmq
          · exact ⟨s', h, hd⟩
        simp only [editAt, if_neg hmq, collectFiles]
        refine (List.Perm.append_left _
          (collect_editAt_addFile n c (q :: p) rest rel hwr hp')).trans ?_
        exact List.perm_middle
termination_by p es _ _ _ => (sizeOf es, sizeOf p)

/-! ## The edits preserve well-formedness; stream length facts -/
theorem namesOf_mapFiles {g : Bytes × Bytes → Bytes × Bytes}
    (hg : ∀ f, (g f).1 = f.1) : ∀ es, namesOf (mapFiles g es) = namesOf es := by
  intro es
  induction es with
  | nil => rfl
  | cons e r ih =>
      cases e with
      | file n c =>
          rw [mapFiles_cons_file]
          simp only [namesOf, List.map_cons, Entry.name] at ih ⊢
          rw [hg (n, c), ih]
      | dir m s =>
          rw [mapFiles_cons_dir]
          simp only [namesOf, List.map_cons, Entry.name] at ih ⊢
          rw [ih]

theorem wf_mapFiles {sep : Nat} {g : Bytes × Bytes → Bytes × Bytes}
    (hg : ∀ f, (g f).1 = f.1) : ∀ es, Wf sep es → Wf sep (mapFiles g es) := by
  intro es
  induction es with
  | nil => intro h; exact h
  | cons e r ih =>
      intro h
      cases e with
      | file n c =>
          simp only [Wf] at h
          rw [mapFiles_cons_file]
          simp only [Wf]
          refine ⟨?_, ?_, ih h.2.2⟩
          · have := hg (n, c); simp only [this]; exact h.1
          · have := hg (n, c); simp only [this]
            rw [namesOf_mapFiles hg]; exact h.2.1
      | dir m s =>
          simp only [Wf] at h
          rw [mapFiles_cons_dir]
          simp only [Wf]
          exact ⟨h.1, by rw [namesOf_mapFiles hg]; exact h.2.1, h.2.2.1, ih h.2.2.2⟩

theorem namesOf_editAt (q : Bytes) (p : List Bytes) (f : List Entry → List Entry) :
    ∀ es, namesOf (editAt (q :: p) f es) = namesOf es := by
  intro es
  induction es with
  | nil => simp [editAt]
  | cons e r ih =>
      cases e with
      | file m c =>
          simp only [editAt, namesOf, List.map_cons, Entry.name] at ih ⊢
          rw [ih]
      | dir m s =>
          by_cases hmq : m = q
          · subst hmq
            simp only [editAt]
            rw [if_true]
            simp only [namesOf, List.map_cons, Entry.name] at ih ⊢
            rw [ih]
          · simp only [editAt]
            rw [if_neg hmq]
            simp only [namesOf, List.map_cons, Entry.name] at ih ⊢
            rw [ih]

theorem wf_editAt_mapFiles {sep : Nat} {g : Bytes × Bytes → Bytes × Bytes}
    (hg : ∀ f, (g f).1 = f.1) : ∀ (p : List Bytes) (es : List Entry),
    Wf sep es → Wf sep (editAt p (mapFiles g) es)
  | [], es, h => by
      simp only [editAt]
      exact wf_mapFiles hg es h
  | q :: p, [], h => by simpa [editAt] using h
  | q :: p, .file m c :: rest, h => by
      simp only [Wf] at h
      simp only [editAt, Wf]
      exact ⟨h.1, by rw [namesOf_editAt]; exact h.2.1,
        wf_editAt_mapFiles hg (q :: p) rest h.2.2⟩
  | q :: p, .dir m s :: rest, h => by
      simp only [Wf] at h
      by_cases hmq : m = q
      · subst hmq
        simp only [editAt]
        rw [if_true]
        simp only [Wf]
        exact ⟨h.1, by rw [namesOf_editAt]; exact h.2.1,
          wf_editAt_mapFiles hg p s h.2.2.1,
          wf_editAt_mapFiles hg (m :: p) rest h.2.2.2⟩
      · simp only [editAt]
        rw [if_neg hmq]
        simp only [Wf]
        exact ⟨h.1, by rw [namesOf_editAt]; exact h.2.1, h.2.2.1,
          wf_editAt_mapFiles hg (q :: p) rest h.2.2.2⟩
termination_by p es _ => (sizeOf es, sizeOf p)

theorem hashInput_length (root : Bytes) (sep : Nat) (es : List Entry) :
    (hashInput root sep es).length =
      ((collectFiles [] es).map
        (fun t => (relPath sep t.1 t.2.1 ++ t.2.2).length)).sum := by
  rw [hashInput_eq_flatMap, List.flatMap_def, List.length_flatten, List.map_map]
  have : (List.length ∘ fun t : List Bytes × Bytes × Bytes =>
      relPath sep t.1 t.2.1 ++ t.2.2) =
      (fun t : List Bytes × Bytes × Bytes => (relPath sep t.1 t.2.1 ++ t.2.2).length) := rfl
  rw [this]
  exact ((codeTriples_perm_collect root sep es).map _).sum_eq

theorem sum_le_sum_pointwise {α : Type} {f g : α → Nat} : ∀ {l : List α},
    (∀ a ∈ l, f a ≤ g a) → (l.map f).sum ≤ (l.map g).sum := by
  intro l
  induction l with
  | nil => intro _; simp
  | cons x t ih =>
      intro h
      simp only [List.map_cons, List.sum_cons]
      have h₁ := h x (by simp)
      have h₂ := ih (fun a ha => h a (by simp [ha]))
      omega

theorem sum_lt_sum_pointwise {α : Type} {f g : α → Nat} : ∀ {l : List α},
    (∀ a ∈ l, f a ≤ g a) → (∃ a ∈ l, f a < g a) → (l.map f).sum < (l.map g).sum := by
  intro l
  induction l with
  | nil => intro _ h; simp at h
  | cons x t ih =>
      intro hle hex
      simp only [List.map_cons, List.sum_cons]
      rcases hex with ⟨a, ha, hlt⟩
      rcases List.mem_cons.mp ha with rfl | ha'
      · have := sum_le_sum_pointwise (l := t)
          (fun b hb => hle b (List.mem_cons_of_mem _ hb))
        omega
      · have h₁ := hle x (by simp)
        have h₂ := ih (fun b hb => hle b (by simp [hb])) ⟨a, ha', hlt⟩
        omega

theorem joinComps_snoc_length (sep : Nat) : ∀ (c : List Bytes) (x : Bytes),
    (joinComps sep (c ++ [x])).length =
      (joinComps sep c).length + x.length + (if c = [] then 0 else 1)
  | [], x => by simp [joinComps]
  | [y], x => by
      simp only [List.cons_append, List.nil_append]
      simp only [joinComps, List.length_append, List.length_cons]
      simp only [if_neg (by simp : ¬([y] : List Bytes) = [])]
      omega
  | y :: z :: r, x => by
      have ih := joinComps_snoc_length sep (z :: r) x
      simp only [List.cons_append] at ih ⊢
      simp only [joinComps, List.length_append, List.length_cons]
      rw [ih]
      simp only [if_neg (by simp : ¬(z :: r : List Bytes) = []),
        if_neg (by simp : ¬(y :: z :: r : List Bytes) = [])]
      omega

theorem relPath_length (sep : Nat) (p : List Bytes) (n : Bytes) :
    (relPath sep p n).length =
      (joinComps sep p).length + n.length + (if p = [] then 0 else 1) := by
  unfold relPath
  exact joinComps_snoc_length sep p n

theorem compute_ne_of_hashInput_ne {H : Bytes → Bytes} (hinj : Function.Injective H)
    {root : Bytes} {sep : Nat} {es₁ es₂ : List Entry}
    (h : hashInput root sep es₁ ≠ hashInput root sep es₂) :
    compute_content_hash H root sep es₁ ≠ compute_content_hash H root sep es₂ := by
  intro hc
  unfold compute_content_hash at hc
  exact h (hinj (List.append_cancel_left hc))

theorem sorted_collect_keys_nodup {sep : Nat} {es : List Entry} (hwf : Wf sep es) :
    (((collectFiles [] es).insertionSort (tripleLe sep)).map
      (fun t => (joinComps sep t.1, t.2.1))).Nodup :=
  ((List.perm_insertionSort _ _).map _).nodup_iff.mpr (collect_joined_keys_nodup hwf)

theorem tripleLe_iff_of_keys {sep : Nat}
    {G : List Bytes × Bytes × Bytes → List Bytes × Bytes × Bytes}
    (hG1 : ∀ t, (G t).1 = t.1) (hG2 : ∀ t, (G t).2.1 = t.2.1)
    (a b : List Bytes × Bytes × Bytes) : tripleLe sep a b ↔ tripleLe sep (G a) (G b) := by
  unfold tripleLe
  rw [hG1 a, hG1 b, hG2 a, hG2 b]

/-- Changing the content of an existing file (in particular changing one
byte) changes the hasher input, hence the fingerprint for an injective
digest. -/
theorem hash_ne_of_setContent (H : Bytes → Bytes) (hinj : Function.Injective H)
    (root : Bytes) (sep : Nat) (es : List Entry) (p : List Bytes) (n c c' : Bytes)
    (hwf : Wf sep es) (hmem : (p, n, c) ∈ collectFiles [] es) (hne : c' ≠ c) :
    compute_content_hash H root sep es ≠
      compute_content_hash H root sep (editAt p (setContentIn n c') es) := by
  apply compute_ne_of_hashInput_ne hinj
  have hgname : ∀ f : Bytes × Bytes,
      ((fun f : Bytes × Bytes => if f.1 = n then (f.1, c') else f) f).1 = f.1 := by
    intro f; by_cases h : f.1 = n <;> simp [h]
  have hwf₂ : Wf sep (editAt p (setContentIn n c') es) :=
    wf_editAt_mapFiles hgname p es hwf
  rw [hashInput_eq_amendedStream _ _ _ hwf, hashInput_eq_amendedStream _ _ _ hwf₂]
  unfold amendedStream
  have hcol : collectFiles [] (editAt p (setContentIn n c') es) =
      (collectFiles [] es).map
        (fun t => if t.1 = p then
          (t.1, if t.2.1 = n then (t.2.1, c') else t.2) else t) := by
    have := collect_editAt_mapFiles
      (fun f : Bytes × Bytes => if f.1 = n then (f.1, c') else f) p es []
    simpa using this
  have hG1 : ∀ t : List Bytes × Bytes × Bytes,
      ((fun t : List Bytes × Bytes × Bytes => if t.1 = p then
        (t.1, if t.2.1 = n then (t.2.1, c') else t.2) else t) t).1 = t.1 := by
    intro t; by_cases h : t.1 = p <;> simp [h]
  have hG2 : ∀ t : List Bytes × Bytes × Bytes,
      ((fun t : List Bytes × Bytes × Bytes => if t.1 = p then
        (t.1, if t.2.1 = n then (t.2.1, c') else t.2) else t) t).2.1 = t.2.1 := by
    intro t
    by_cases h : t.1 = p
    · by_cases h' : t.2.1 = n <;> simp [h, h']
    · simp [h]
  rw [hcol, ← List.map_insertionSort (tripleLe sep) (tripleLe sep) _ _
    (fun a _ b _ => tripleLe_iff_of_keys hG1 hG2 a b)]
  obtain ⟨L₁, L₂, hsplit⟩ :=
    List.append_of_mem ((List.mem_insertionSort (tripleLe sep)).mpr hmem)
  have hnd := @sorted_collect_keys_nodup sep es hwf
  rw [hsplit] at hnd
  rw [hsplit]
  have hnd' : ((joinComps sep p, n) ::
      (L₁.map (fun t : List Bytes × Bytes × Bytes => (joinComps sep t.1, t.2.1)) ++
       L₂.map (fun t : List Bytes × Bytes × Bytes => (joinComps sep t.1, t.2.1)))).Nodup := by
    rw [← List.nodup_middle]
    simpa [List.map_append, List.map_cons] using hnd
  have hnotmem : (joinComps sep p, n) ∉
      L₁.map (fun t : List Bytes × Bytes × Bytes => (joinComps sep t.1, t.2.1)) ++
      L₂.map (fun t : List Bytes × Bytes × Bytes => (joinComps sep t.1, t.2.1)) :=
    (List.nodup_cons.mp hnd').1
  have hGy : ∀ y ∈ L₁ ++ L₂,
      (fun t : List Bytes × Bytes × Bytes => if t.1 = p then
        (t.1, if t.2.1 = n then (t.2.1, c') else t.2) else t) y = y := by
    intro y hy
    have hkmem : (joinComps sep y.1, y.2.1) ∈
        L₁.map (fun t : List Bytes × Bytes × Bytes => (joinComps sep t.1, t.2.1)) ++
        L₂.map (fun t : List Bytes × Bytes × Bytes => (joinComps sep t.1, t.2.1)) := by
      rcases List.mem_append.mp hy with h | h
      · exact List.mem_append.mpr (Or.inl (List.mem_map_of_mem _ h))
      · exact List.mem_append.mpr (Or.inr (List.mem_map_of_mem _ h))
    have hkey : (joinComps sep y.1, y.2.1) ≠ (joinComps sep p, n) :=
      fun hk => hnotmem (hk ▸ hkmem)
    show (if y.1 = p then (y.1, if y.2.1 = n then (y.2.1, c') else y.2) else y) = y
    by_cases h1 : y.1 = p
    · have h2 : y.2.1 ≠ n := fun h => hkey (by rw [h1, h])
      rw [if_pos h1, if_neg h2]
    · rw [if_neg h1]
  have hmapL₁ : L₁.map (fun t : List Bytes × Bytes × Bytes => if t.1 = p then
      (t.1, if t.2.1 = n then (t.2.1, c') else t.2) else t) = L₁ :=
    map_eq_self_of_eq (fun a ha => hGy a (List.mem_append.mpr (Or.inl ha)))
  have hmapL₂ : L₂.map (fun t : List Bytes × Bytes × Bytes => if t.1 = p then
      (t.1, if t.2.1 = n then (t.2.1, c') else t.2) else t) = L₂ :=
    map_eq_self_of_eq (fun a ha => hGy a (List.mem_append.mpr (Or.inr ha)))
  simp only [List.map_append, List.map_cons, hmapL₁, hmapL₂, if_pos rfl]
  simp only [List.flatMap_append, List.flatMap_cons]
  intro he
  have he₁ := List.append_cancel_left he
  have he₂ := List.append_cancel_right he₁
  have he₃ := List.append_cancel_left he₂
  exact hne (by simpa using he₃.symm)

theorem seg_length_formula (sep : Nat) (t : List Bytes × Bytes × Bytes) :
    (relPath sep t.1 t.2.1 ++ t.2.2).length =
      (joinComps sep t.1).length + t.2.1.length +
        (if t.1 = [] then 0 else 1) + t.2.2.length := by
  rw [List.length_append, relPath_length]

/-- Under well-formedness, a triple map that is the identity away from the
key of one present triple acts on the flat file list by replacing only that
triple. -/
theorem map_edit_split {sep : Nat} {es : List Entry} (hwf : Wf sep es)
    {p : List Bytes} {n c : Bytes}
    {L₁ L₂ : List (List Bytes × Bytes × Bytes)}
    (hsplit : collectFiles [] es = L₁ ++ (p, n, c) :: L₂)
    (G : List Bytes × Bytes × Bytes → List Bytes × Bytes × Bytes)
    (hGid : ∀ y, (joinComps sep y.1, y.2.1) ≠ (joinComps sep p, n) → G y = y) :
    (collectFiles [] es).map G = L₁ ++ G (p, n, c) :: L₂ := by
  have hnd := @collect_joined_keys_nodup sep es hwf
  rw [hsplit] at hnd
  have hnd' : ((joinComps sep p, n) ::
      (L₁.map (fun t : List Bytes × Bytes × Bytes => (joinComps sep t.1, t.2.1)) ++
       L₂.map (fun t : List Bytes × Bytes × Bytes => (joinComps sep t.1, t.2.1)))).Nodup := by
    rw [← List.nodup_middle]
    simpa [List.map_append, List.map_cons] using hnd
  have hnotmem : (joinComps sep p, n) ∉
      L₁.map (fun t : List Bytes × Bytes × Bytes => (joinComps sep t.1, t.2.1)) ++
      L₂.map (fun t : List Bytes × Bytes × Bytes => (joinComps sep t.1, t.2.1)) :=
    (List.nodup_cons.mp hnd').1
  have hGy : ∀ y ∈ L₁ ++ L₂, G y = y := by
    intro y hy
    have hkmem : (joinComps sep y.1, y.2.1) ∈
        L₁.map (fun t : List Bytes × Bytes × Bytes => (joinComps sep t.1, t.2.1)) ++
        L₂.map (fun t : List Bytes × Bytes × Bytes => (joinComps sep t.1, t.2.1)) := by
      rcases List.mem_append.mp hy with h | h
      · exact List.mem_append.mpr (Or.inl (List.mem_map_of_mem _ h))
      · exact List.mem_append.mpr (Or.inr (List.mem_map_of_mem _ h))
    exact hGid y (fun hk => hnotmem (hk ▸ hkmem))
  rw [hsplit, List.map_append, List.map_cons,
    map_eq_self_of_eq (fun a ha => hGy a (List.mem_append.mpr (Or.inl ha))),
    map_eq_self_of_eq (fun a ha => hGy a (List.mem_append.mpr (Or.inr ha)))]

/-- Renaming an existing file to a name of a different length changes the
hasher input length, hence the fingerprint for an injective digest. -/
theorem hash_ne_of_rename (H : Bytes → Bytes) (hinj : Function.Injective H)
    (root : Bytes) (sep : Nat) (es : List Entry) (p : List Bytes) (n c n' : Bytes)
    (hwf : Wf sep es) (hmem : (p, n, c) ∈ collectFiles [] es)
    (hlen : n'.length ≠ n.length) :
    compute_content_hash H root sep es ≠
      compute_content_hash H root sep (editAt p (renameIn n n') es) := by
  apply compute_ne_of_hashInput_ne hinj
  intro he
  have hcol : collectFiles [] (editAt p (renameIn n n') es) =
      (collectFiles [] es).map
        (fun t => if t.1 = p then (t.1, if t.2.1 = n then (n', t.2.2) else t.2) else t) := by
    have := collect_editAt_mapFiles
      (fun f : Bytes × Bytes => if f.1 = n then (n', f.2) else f) p es []
    simpa using this
  obtain ⟨L₁, L₂, hsplit⟩ := List.append_of_mem hmem
  have hGid : ∀ y : List Bytes × Bytes × Bytes,
      (joinComps sep y.1, y.2.1) ≠ (joinComps sep p, n) →
      (fun t : List Bytes × Bytes × Bytes => if t.1 = p then
        (t.1, if t.2.1 = n then (n', t.2.2) else t.2) else t) y = y := by
    intro y hkey
    show (if y.1 = p then (y.1, if y.2.1 = n then (n', y.2.2) else y.2) else y) = y
    by_cases h1 : y.1 = p
    · have h2 : y.2.1 ≠ n := fun h => hkey (by rw [h1, h])
      rw [if_pos h1, if_neg h2]
    · rw [if_neg h1]
  have hmap := map_edit_split hwf hsplit _ hGid
  have h1 := congrArg List.length he
  rw [hashInput_length, hashInput_length, hcol, hmap, hsplit] at h1
  simp only [List.map_append, List.map_cons, List.sum_append, List.sum_cons,
    if_pos rfl, if_true, List.length_append] at h1
  have hx := seg_length_formula sep (p, n, c)
  have hx' := seg_length_formula sep (p, n', c)
  simp [List.length_append] at hx hx'
  omega

/-- Adding a file to an existing directory (equivalently, removing one)
changes the hasher input length, hence the fingerprint for an injective
digest. -/
theorem hash_ne_of_addFile (H : Bytes → Bytes) (hinj : Function.Injective H)
    (root : Bytes) (sep : Nat) (es : List Entry) (p : List Bytes) (n c : Bytes)
    (hwf : Wf sep es) (hnOk : NameOk sep n) (hdir : DirPath p es) :
    compute_content_hash H root sep es ≠
      compute_content_hash H root sep (editAt p (addFileIn n c) es) := by
  apply compute_ne_of_hashInput_ne hinj
  intro he
  have h1 := congrArg List.length he
  rw [hashInput_length, hashInput_length] at h1
  have hperm := @collect_editAt_addFile sep n c p es [] hwf hdir
  have h2 := (hperm.map
    (fun t : List Bytes × Bytes × Bytes => (relPath sep t.1 t.2.1 ++ t.2.2).length)).sum_eq
  rw [h2] at h1
  simp only [List.map_cons, List.sum_cons] at h1
  have hpos : 0 < (relPath sep ([] ++ p) n ++ c).length := by
    rw [List.length_append, relPath_length]
    have := List.length_pos.mpr hnOk.1
    omega
  omega

theorem hashInput_nil_eq (root : Bytes) (sep : Nat) : hashInput root sep [] = [] := by
  simp only [hashInput, osWalk, walkSubs]
  rfl

/-- An empty directory's stream is empty; any well-formed tree holding at
least one file has a nonempty stream, so the two fingerprints differ for an
injective digest. -/
theorem hash_ne_of_empty (H : Bytes → Bytes) (hinj : Function.Injective H)
    (root : Bytes) (sep : Nat) (es : List Entry) (hwf : Wf sep es)
    (hne : collectFiles [] es ≠ []) :
    compute_content_hash H root sep [] ≠ compute_content_hash H root sep es := by
  apply compute_ne_of_hashInput_ne hinj
  rw [hashInput_nil_eq]
  intro he
  have h1 := congrArg List.length he.symm
  rw [hashInput_length] at h1
  cases hcol : collectFiles [] es with
  | nil => exact hne hcol
  | cons t rest =>
      rw [hcol] at h1
      simp only [List.map_cons, List.sum_cons, List.length_nil] at h1
      have hnOk := collect_nameOk [] es hwf t (by rw [hcol]; simp)
      have hpos : 0 < (relPath sep t.1 t.2.1 ++ t.2.2).length := by
        rw [List.length_append, relPath_length]
        have := List.length_pos.mpr hnOk.1
        omega
      omega

/-- Claim C3 (amended): for an injective digest on well-formed package trees,
changing the content of an existing file (in particular changing one byte),
renaming a file to a name of a *different length*, and adding (equivalently,
removing) a file each change the fingerprint, and an empty directory hashes
differently from a directory tree containing only empty files (at least one).
Renaming a file to a *same-length* name can leave the fingerprint unchanged,
as the counterexample shows, so the rename clause must be weakened. -/
theorem C3_amended (H : Bytes → Bytes) (hinj : Function.Injective H)
    (root : Bytes) (sep : Nat) :
    (∀ es p n c c', Wf sep es → (p, n, c) ∈ collectFiles [] es → c' ≠ c →
      compute_content_hash H root sep es ≠
        compute_content_hash H root sep (editAt p (setContentIn n c') es)) ∧
    (∀ es p n c n', Wf sep es → (p, n, c) ∈ collectFiles [] es →
      n'.length ≠ n.length →
      compute_content_hash H root sep es ≠
        compute_content_hash H root sep (editAt p (renameIn n n') es)) ∧
    (∀ es p n c, Wf sep es → NameOk sep n → DirPath p es →
      compute_content_hash H root sep es ≠
        compute_content_hash H root sep (editAt p (addFileIn n c) es)) ∧
    (∀ es, Wf sep es → collectFiles [] es ≠ [] →
      (∀ t ∈ collectFiles [] es, t.2.2 = []) →
      compute_content_hash H root sep [] ≠ compute_content_hash H root sep es) := by
  refine ⟨?_, ?_, ?_, ?_⟩
  · intro es p n c c' hwf hmem hne
    exact hash_ne_of_setContent H hinj root sep es p n c c' hwf hmem hne
  · intro es p n c n' hwf hmem hlen
    exact hash_ne_of_rename H hinj root sep es p n c n' hwf hmem hlen
  · intro es p n c hwf hn hd
    exact hash_ne_of_addFile H hinj root sep es p n c hwf hn hd
  · intro es hwf hne _
    exact hash_ne_of_empty H hinj root sep es hwf hne

/-- Witness for `C3_amended`: changing the single byte of file `a` from `x`
to `y` changes the fingerprint (identity digest, which is injective). -/
theorem C3_amended_witness :
    Function.Injective (id : Bytes → Bytes) ∧
    Wf 47 [Entry.file (asciiBytes "a") (asciiBytes "x")] ∧
    ([], asciiBytes "a", asciiBytes "x") ∈
      collectFiles [] [Entry.file (asciiBytes "a") (asciiBytes "x")] ∧
    asciiBytes "y" ≠ asciiBytes "x" ∧
    compute_content_hash id [] 47 [Entry.file (asciiBytes "a") (asciiBytes "x")] ≠
      compute_content_hash id [] 47
        (editAt [] (setContentIn (asciiBytes "a") (asciiBytes "y"))
          [Entry.file (asciiBytes "a") (asciiBytes "x")]) := by
  have hinj : Function.Injective (id : Bytes → Bytes) := fun _ _ h => h
  have hwf : Wf 47 [Entry.file (asciiBytes "a") (asciiBytes "x")] := by
    simp only [Wf, NameOk, namesOf, Entry.name]; decide
  have hmem : ([], asciiBytes "a", asciiBytes "x") ∈
      collectFiles [] [Entry.file (asciiBytes "a") (asciiBytes "x")] := by
    simp [collectFiles]
  exact ⟨hinj, hwf, hmem, by decide,
    (C3_amended id hinj [] 47).1 _ _ _ _ _ hwf hmem (by decide)⟩

/-- If some directory of the listing fails validation, the scan either crashes
or ends with a positive error count. -/
theorem processEntries_err_pos (yamlParse : Bytes → Except Bytes Yaml)
    (H : Bytes → Bytes) (rootPath : Bytes) (sep : Nat) {n : Bytes} {s : List Entry}
    {e : ParseErr} (herr : parse_skill_md yamlParse s = some (Except.error e)) :
    ∀ l : List Entry, Entry.dir n s ∈ l →
      processEntries yamlParse H rootPath sep l = Except.error () ∨
      ∃ k recs, processEntries yamlParse H rootPath sep l = Except.ok (k, recs) ∧ 0 < k := by
  intro l hl
  induction l with
  | nil => exact absurd hl (List.not_mem_nil _)
  | cons hd rest ih =>
    rcases List.mem_cons.mp hl with heq | hmem
    · subst heq
      simp only [processEntries, herr]
      cases hrest : processEntries yamlParse H rootPath sep rest with
      | error u => cases u; exact Or.inl rfl
      | ok p => exact Or.inr ⟨p.1 + 1, p.2, rfl, Nat.succ_pos _⟩
    · cases hd with
      | file m c => simpa only [processEntries] using ih hmem
      | dir m t =>
        have hres := ih hmem
        cases hp : parse_skill_md yamlParse t with
        | none =>
          simp only [processEntries, hp]
          exact Or.inl trivial
        | some pr =>
          cases pr with
          | error e₂ =>
            simp only [processEntries, hp]
            rcases hres with hrec | ⟨k, recs, hrec, hk⟩
            · rw [hrec]; exact Or.inl rfl
            · rw [hrec]; exact Or.inr ⟨k + 1, recs, rfl, Nat.succ_pos _⟩
          | ok fm =>
            simp only [processEntries, hp]
            cases hb : buildRecord fm (compute_content_hash H (rootPath ++ sep :: m) sep t) with
            | error u => cases u; exact Or.inl rfl
            | ok r =>
              rcases hres with hrec | ⟨k, recs, hrec, hk⟩
              · rw [hrec]; exact Or.inl rfl
              · rw [hrec]; exact Or.inr ⟨k, r :: recs, rfl, hk⟩

/-- C4: if any package directory of the skills root fails metadata
validation, the run writes no output artifact and exits with status 1, even
when every other package is valid; conversely, when the scan ends with a zero
error count the registry is emitted and its record count reported. -/
theorem C4_all_or_nothing (yamlParse : Bytes → Except Bytes Yaml) (H : Bytes → Bytes)
    (rootPath : Bytes) (sep : Nat) (es : List Entry) :
    ((∃ n s, Entry.dir n s ∈ es ∧
        ∃ e, parse_skill_md yamlParse s = some (Except.error e)) →
      artifactOf (mainRun yamlParse H rootPath sep (some es)) = none ∧
      exitCode (mainRun yamlParse H rootPath sep (some es)) = 1) ∧
    (∀ recs, processEntries yamlParse H rootPath sep (sortedEntries es) =
        Except.ok (0, recs) →
      mainRun yamlParse H rootPath sep (some es) =
        RunResult.success (emitRegistry recs) recs.length) := by
  constructor
  · rintro ⟨n, s, hmem, e, herr⟩
    have hmem' : Entry.dir n s ∈ sortedEntries es := by
      unfold sortedEntries
      exact (List.mem_insertionSort _).mpr hmem
    rcases processEntries_err_pos yamlParse H rootPath sep herr _ hmem' with
      hpe | ⟨k, recs, hpe, hk⟩
    · simp only [mainRun, hpe]; exact ⟨rfl, rfl⟩
    · simp only [mainRun, hpe]
      rw [if_pos hk]
      exact ⟨rfl, rfl⟩
  · intro recs hpe
    simp only [mainRun, hpe]
    rfl

/-- Closed instance of C4: a root with one valid and one invalid package
yields no artifact and exit status 1; an empty root emits the empty
registry. -/
theorem C4_witness :
    (artifactOf (mainRun yamlParseMini id (asciiBytes "/S") 47 (some c4Root)) = none ∧
     exitCode (mainRun yamlParseMini id (asciiBytes "/S") 47 (some c4Root)) = 1) ∧
    mainRun yamlParseMini id (asciiBytes "/S") 47 (some []) =
      RunResult.success (emitRegistry []) 0 := by
  constructor
  · refine (C4_all_or_nothing yamlParseMini id (asciiBytes "/S") 47 c4Root).1 ?_
    exact ⟨asciiBytes "bad", [Entry.file skillMdName c4BadContent],
      List.mem_cons_of_mem _ (List.mem_cons_self _ _),
      ParseErr.missingRequiredField (asciiBytes "version"), rfl⟩
  · exact (C4_all_or_nothing yamlParseMini id (asciiBytes "/S") 47 []).2 [] rfl

/-- `content.split("---", 2)` yields one, two or three parts. -/
theorem pySplit2_shape (pat s : Bytes) :
    pySplit2 pat s = [s] ∨ (∃ a b, pySplit2 pat s = [a, b]) ∨
      ∃ a b c, pySplit2 pat s = [a, b, c] := by
  unfold pySplit2
  split
  · exact Or.inl rfl
  · split
    · exact Or.inr (Or.inl ⟨_, _, rfl⟩)
    · exact Or.inr (Or.inr ⟨_, _, _, rfl⟩)

/-- The check cascade of `parse_skill_md` coincides with the ordered
short-circuiting check list of the specification. -/
theorem parse_eq_specParse (yamlParse : Bytes → Except Bytes Yaml) (pkg : List Entry) :
    parse_skill_md yamlParse pkg = specParse yamlParse pkg := by
  unfold parse_skill_md specParse specCheckList
  cases findSkillMd pkg with
  | none => rfl
  | some entry =>
    cases entry with
    | dir nm sub => rfl
    | file nm content =>
      cases hlw : leadsWith fence content with
      | false => simp [hlw, List.findSome?]
      | true =>
        rcases pySplit2_shape fence content with h | ⟨a, b, h⟩ | ⟨a, b, c, h⟩
        · simp [hlw, h, List.findSome?]
        · simp [hlw, h, List.findSome?]
        · cases hy : yamlParse b with
          | error e => simp [hlw, h, hy, List.findSome?]
          | ok y =>
            cases y with
            | map m =>
              cases hm : firstMissingField m with
              | none => simp [hlw, h, hy, hm, List.findSome?]
              | some f => simp [hlw, h, hy, hm, List.findSome?]
            | nil => simp [hlw, h, hy, List.findSome?]
            | bool v => simp [hlw, h, hy, List.findSome?]
            | int v => simp [hlw, h, hy, List.findSome?]
            | str v => simp [hlw, h, hy, List.findSome?]
            | seq v => simp [hlw, h, hy, List.findSome?]

/-- C5: metadata validation applies its checks in the fixed order
fence-prefix, three-part split, structured parse, mapping type, required-key
presence, each short-circuiting with its error kind and stopping at the first
missing required field (`parse_skill_md` equals the spec's ordered cascade);
in particular a mapping with `name` and `description` but no `version` is
rejected with a diagnostic naming `version`, and a package that fails
validation never reaches any emitted output (no artifact is written at
all). -/
theorem C5_validation_order (yamlParse : Bytes → Except Bytes Yaml) :
    (∀ pkg, parse_skill_md yamlParse pkg = specParse yamlParse pkg) ∧
    (∀ pkg nm content a body c m,
      findSkillMd pkg = some (Entry.file nm content) →
      leadsWith fence content = true →
      pySplit2 fence content = [a, body, c] →
      yamlParse body = Except.ok (Yaml.map m) →
      hasKey m (asciiBytes "name") = true →
      hasKey m (asciiBytes "description") = true →
      hasKey m (asciiBytes "version") = false →
      parse_skill_md yamlParse pkg =
        some (Except.error (ParseErr.missingRequiredField (asciiBytes "version")))) ∧
    (∀ (H : Bytes → Bytes) rootPath sep es n s e, Entry.dir n s ∈ es →
      parse_skill_md yamlParse s = some (Except.error e) →
      artifactOf (mainRun yamlParse H rootPath sep (some es)) = none) := by
  refine ⟨parse_eq_specParse yamlParse, ?_, ?_⟩
  · intro pkg nm content a body c m hf hlw hs hy hn hd hv
    have hfm : firstMissingField m = some (asciiBytes "version") := by
      unfold firstMissingField REQUIRED_FIELDS
      simp [List.find?, hn, hd, hv]
    simp [parse_skill_md, hf, hlw, hs, hy, hfm]
  · intro H rootPath sep es n s e hmem herr
    have hmem' : Entry.dir n s ∈ sortedEntries es := by
      unfold sortedEntries
      exact (List.mem_insertionSort _).mpr hmem
    rcases processEntries_err_pos yamlParse H rootPath sep herr _ hmem' with
      hpe | ⟨k, recs, hpe, hk⟩
    · simp only [mainRun, hpe]; rfl
    · simp only [mainRun, hpe]
      rw [if_pos hk]
      rfl

/-- Closed instance of C5: the missing-`version` package matches the spec
cascade, is rejected naming `version`, and a root holding it produces no
artifact. -/
theorem C5_witness :
    parse_skill_md yamlParseMini c5Pkg = specParse yamlParseMini c5Pkg ∧
    parse_skill_md yamlParseMini c5Pkg =
      some (Except.error (ParseErr.missingRequiredField (asciiBytes "version"))) ∧
    artifactOf (mainRun yamlParseMini id (asciiBytes "/S") 47
      (some [Entry.dir (asciiBytes "p") c5Pkg])) = none := by
  refine ⟨(C5_validation_order yamlParseMini).1 c5Pkg, ?_, ?_⟩
  · exact (C5_validation_order yamlParseMini).2.1 c5Pkg skillMdName c5Content
      (asciiBytes "") (asciiBytes "\nname: p\ndescription: d\nauthor: a\n")
      (asciiBytes "\nbody") c5Map rfl rfl rfl rfl rfl rfl rfl
  · exact (C5_validation_order yamlParseMini).2.2 id (asciiBytes "/S") 47 _
      (asciiBytes "p") c5Pkg (ParseErr.missingRequiredField (asciiBytes "version"))
      (List.mem_cons_self _ _)
      ((C5_validation_order yamlParseMini).2.1 c5Pkg skillMdName c5Content
        (asciiBytes "") (asciiBytes "\nname: p\ndescription: d\nauthor: a\n")
        (asciiBytes "\nbody") c5Map rfl rfl rfl rfl rfl rfl rfl)

theorem sortedEntries_sorted (es : List Entry) :
    (sortedEntries es).Pairwise (fun a b => Entry.name a ≤ Entry.name b) := by
  haveI : IsTotal Entry (fun a b : Entry => a.name ≤ b.name) :=
    ⟨fun a b => le_total _ _⟩
  haveI : IsTrans Entry (fun a b : Entry => a.name ≤ b.name) :=
    ⟨fun _ _ _ h h' => le_trans h h'⟩
  exact List.sorted_insertionSort _ es

/-- `sorted(os.listdir(...))` depends only on the set of names: any two
enumeration orders of the same entries sort identically (names are unique on
a real filesystem). -/
theorem sortedEntries_eq_of_perm {es₁ es₂ : List Entry} (hp : es₁.Perm es₂)
    (hnd : (es₁.map Entry.name).Nodup) : sortedEntries es₁ = sortedEntries es₂ := by
  refine sorted_nodup_perm_eq Entry.name ?_
    (sortedEntries_sorted es₁) (sortedEntries_sorted es₂) ?_
  · exact (List.perm_insertionSort _ es₁).trans
      (hp.trans (List.perm_insertionSort _ es₂).symm)
  · exact ((List.perm_insertionSort _ es₁).map Entry.name).nodup_iff.mpr hnd

/-- The records accumulated by a non-crashing scan are exactly the records of
the valid packages, in listing order. -/
theorem processEntries_ok_recs (yamlParse : Bytes → Except Bytes Yaml)
    (H : Bytes → Bytes) (rootPath : Bytes) (sep : Nat) :
    ∀ (l : List Entry) (k : Nat) (recs : List SkillRecord),
      processEntries yamlParse H rootPath sep l = Except.ok (k, recs) →
      recs = (validIn yamlParse l).map
        (fun d => recordOf yamlParse H rootPath sep d) := by
  intro l
  induction l with
  | nil =>
    intro k recs h
    injection h with h'
    injection h' with h₁ h₂
    subst h₂
    rfl
  | cons hd rest ih =>
    intro k recs h
    cases hd with
    | file m c =>
      have h' : processEntries yamlParse H rootPath sep rest = Except.ok (k, recs) := h
      simpa only [validIn] using ih k recs h'
    | dir m t =>
      cases hp : parse_skill_md yamlParse t with
      | none =>
        simp only [processEntries, hp] at h
        exact Except.noConfusion h
      | some pr =>
        cases pr with
        | error e =>
          simp only [processEntries, hp] at h
          cases hrest : processEntries yamlParse H rootPath sep rest with
          | error u => cases u; rw [hrest] at h; cases h
          | ok p =>
            obtain ⟨k', recs'⟩ := p
            rw [hrest] at h
            injection h with h'
            injection h' with h₁ h₂
            subst h₂
            simpa only [validIn, hp] using ih k' recs' hrest
        | ok fm =>
          simp only [processEntries, hp] at h
          cases hb : buildRecord fm
              (compute_content_hash H (rootPath ++ sep :: m) sep t) with
          | error u => cases u; rw [hb] at h; cases h
          | ok r =>
            rw [hb] at h
            cases hrest : processEntries yamlParse H rootPath sep rest with
            | error u => cases u; rw [hrest] at h; cases h
            | ok p =>
              obtain ⟨k', recs'⟩ := p
              rw [hrest] at h
              injection h with h'
              injection h' with h₁ h₂
              subst h₂
              simp only [validIn, hp, List.map_cons]
              rw [ih k' recs' hrest]
              have hg : recordOf yamlParse H rootPath sep (m, t) = r := by
                simp only [recordOf, hp, hb]
              rw [hg]

/-- The names of the valid packages form a sublist of the listing's names. -/
theorem validIn_fst_sublist (yamlParse : Bytes → Except Bytes Yaml) :
    ∀ l : List Entry, ((validIn yamlParse l).map Prod.fst).Sublist (l.map Entry.name) := by
  intro l
  induction l with
  | nil => exact List.Sublist.refl _
  | cons hd rest ih =>
    cases hd with
    | file m c =>
      simp only [validIn, List.map_cons]
      exact List.Sublist.cons _ ih
    | dir m t =>
      cases hp : parse_skill_md yamlParse t with
      | none =>
        simp only [validIn, hp, List.map_cons]
        exact List.Sublist.cons _ ih
      | some pr =>
        cases pr with
        | error e =>
          simp only [validIn, hp, List.map_cons]
          exact List.Sublist.cons _ ih
        | ok fm =>
          simp only [validIn, hp, List.map_cons]
          exact List.Sublist.cons₂ _ ih

/-- C6: for a root listing with distinct entry names, a non-crashing scan
accumulates exactly the records of the valid packages in ascending
byte-wise directory-name order (the emitted array order), and the whole run
is invariant under the filesystem's enumeration order of the root. -/
theorem C6_ordering (yamlParse : Bytes → Except Bytes Yaml) (H : Bytes → Bytes)
    (rootPath : Bytes) (sep : Nat) (es : List Entry)
    (hnd : (es.map Entry.name).Nodup) :
    (∀ k recs, processEntries yamlParse H rootPath sep (sortedEntries es) =
        Except.ok (k, recs) →
      recs = (validDirs yamlParse es).map
          (fun d => recordOf yamlParse H rootPath sep d) ∧
      ((validDirs yamlParse es).map Prod.fst).Pairwise (fun a b => a ≤ b)) ∧
    (∀ es₂, es₂.Perm es →
      mainRun yamlParse H rootPath sep (some es₂) =
        mainRun yamlParse H rootPath sep (some es)) := by
  constructor
  · intro k recs h
    refine ⟨processEntries_ok_recs yamlParse H rootPath sep _ k recs h, ?_⟩
    have hmap : ((sortedEntries es).map Entry.name).Pairwise (fun a b => a ≤ b) :=
      List.pairwise_map.mpr (sortedEntries_sorted es)
    exact List.Pairwise.sublist (validIn_fst_sublist yamlParse (sortedEntries es)) hmap
  · intro es₂ hperm
    have he := sortedEntries_eq_of_perm hperm ((hperm.map Entry.name).nodup_iff.mpr hnd)
    simp only [mainRun, he]

/-- Closed instance of C6: with packages created in the order `foo`, `bar`,
the scan yields the records in the order `bar`, `foo` (ascending directory
names), and listing the root in either order gives the same run result. -/
theorem C6_witness :
    (c6Recs = (validDirs yamlParseMini c6Es).map
        (fun d => recordOf yamlParseMini id (asciiBytes "/S") 47 d) ∧
      ((validDirs yamlParseMini c6Es).map Prod.fst).Pairwise (fun a b => a ≤ b)) ∧
    mainRun yamlParseMini id (asciiBytes "/S") 47 (some [c6DirBar, c6DirFoo]) =
      mainRun yamlParseMini id (asciiBytes "/S") 47 (some c6Es) := by
  constructor
  · exact (C6_ordering yamlParseMini id (asciiBytes "/S") 47 c6Es (by decide)).1
      0 c6Recs rfl
  · exact (C6_ordering yamlParseMini id (asciiBytes "/S") 47 c6Es (by decide)).2
      [c6DirBar, c6DirFoo] (List.Perm.swap c6DirFoo c6DirBar [])

/-- The per-directory loop ignores non-directory entries entirely. -/
theorem processEntries_filter (yamlParse : Bytes → Except Bytes Yaml)
    (H : Bytes → Bytes) (rootPath : Bytes) (sep : Nat) :
    ∀ l : List Entry, processEntries yamlParse H rootPath sep l =
      processEntries yamlParse H rootPath sep (l.filter Entry.isDir) := by
  intro l
  induction l with
  | nil => rfl
  | cons hd rest ih =>
    cases hd with
    | file m c => simpa [List.filter_cons, Entry.isDir, processEntries] using ih
    | dir m t => simp [List.filter_cons, Entry.isDir, processEntries, ih]

/-- A directory whose metadata validates but whose record construction
raises makes the whole scan abort. -/
theorem processEntries_crash_of_mem (yamlParse : Bytes → Except Bytes Yaml)
    (H : Bytes → Bytes) (rootPath : Bytes) (sep : Nat) {n : Bytes} {s : List Entry}
    {fm : List (Bytes × Yaml)}
    (hp : parse_skill_md yamlParse s = some (Except.ok fm))
    (hb : buildRecord fm (compute_content_hash H (rootPath ++ sep :: n) sep s) =
      Except.error ()) :
    ∀ l : List Entry, Entry.dir n s ∈ l →
      processEntries yamlParse H rootPath sep l = Except.error () := by
  intro l hl
  induction l with
  | nil => exact absurd hl (List.not_mem_nil _)
  | cons hd rest ih =>
    rcases List.mem_cons.mp hl with heq | hmem
    · subst heq
      simp only [processEntries, hp, hb]
    · cases hd with
      | file m c => exact ih hmem
      | dir m t =>
        have hr := ih hmem
        cases hpt : parse_skill_md yamlParse t with
        | none => simp only [processEntries, hpt]
        | some pr =>
          cases pr with
          | error e => simp only [processEntries, hpt, hr]
          | ok fm₂ =>
            cases hbt : buildRecord fm₂
                (compute_content_hash H (rootPath ++ sep :: m) sep t) with
            | error u => cases u; simp only [processEntries, hpt, hbt]
            | ok r => simp only [processEntries, hpt, hbt, hr]

/-- Refutation of C7's "only fatal condition": a root that exists and holds
one package whose frontmatter validates but carries a non-string
`description` makes the whole run abort (unhandled exception): exit status 1,
no artifact, nothing recoverable — yet the result is not the root-missing
failure. -/
theorem C7_counterexample :
    mainRun yamlParseMini id (asciiBytes "/S") 47 (some c7Root) = RunResult.crash ∧
    mainRun yamlParseMini id (asciiBytes "/S") 47 (some c7Root) ≠
      RunResult.fatalRootMissing ∧
    exitCode (mainRun yamlParseMini id (asciiBytes "/S") 47 (some c7Root)) = 1 ∧
    artifactOf (mainRun yamlParseMini id (asciiBytes "/S") 47 (some c7Root)) = none :=
  ⟨rfl, fun h => RunResult.noConfusion h, rfl, rfl⟩

/-- C7 (amended): the run reports the fatal root-missing failure exactly when
the skills root is missing or not a directory, and non-directory entries
under the root are skipped silently by the scan without producing an error;
but root-missing is not the only run-aborting condition: a package whose
metadata validates and whose record construction raises also aborts the
whole run (unhandled exception — exit status 1, no artifact, nothing
recoverable). -/
theorem C7_amended (yamlParse : Bytes → Except Bytes Yaml) (H : Bytes → Bytes)
    (rootPath : Bytes) (sep : Nat) :
    (∀ root, mainRun yamlParse H rootPath sep root = RunResult.fatalRootMissing ↔
      root = none) ∧
    (∀ l : List Entry, processEntries yamlParse H rootPath sep l =
      processEntries yamlParse H rootPath sep (l.filter Entry.isDir)) ∧
    (∀ es n s fm, Entry.dir n s ∈ es →
      parse_skill_md yamlParse s = some (Except.ok fm) →
      buildRecord fm (compute_content_hash H (rootPath ++ sep :: n) sep s) =
        Except.error () →
      mainRun yamlParse H rootPath sep (some es) = RunResult.crash ∧
      exitCode (mainRun yamlParse H rootPath sep (some es)) = 1 ∧
      artifactOf (mainRun yamlParse H rootPath sep (some es)) = none) := by
  refine ⟨?_, processEntries_filter yamlParse H rootPath sep, ?_⟩
  · intro root
    cases root with
    | none => simp [mainRun]
    | some es =>
      simp only [mainRun]
      constructor
      · intro h
        exfalso
        cases hpe : processEntries yamlParse H rootPath sep (sortedEntries es) with
        | error u => cases u; simp only [hpe] at h; exact RunResult.noConfusion h
        | ok p =>
          obtain ⟨k, recs⟩ := p
          simp only [hpe] at h
          split at h
          · exact RunResult.noConfusion h
          · exact RunResult.noConfusion h
      · intro h; exact Option.noConfusion h
  · intro es n s fm hmem hp hb
    have hmem' : Entry.dir n s ∈ sortedEntries es := by
      unfold sortedEntries
      exact (List.mem_insertionSort _).mpr hmem
    have hpe := processEntries_crash_of_mem yamlParse H rootPath sep hp hb _ hmem'
    have hm : mainRun yamlParse H rootPath sep (some es) = RunResult.crash := by
      simp only [mainRun, hpe]
    rw [hm]
    exact ⟨rfl, rfl, rfl⟩

/-- Closed instance of the amended C7: a missing root is the fatal failure; a
stray file under the root changes nothing for the scan; the root holding a
validated package whose record construction raises ends in the aborting
crash. -/
theorem C7_amended_witness :
    mainRun yamlParseMini id (asciiBytes "/S") 47 none = RunResult.fatalRootMissing ∧
    processEntries yamlParseMini id (asciiBytes "/S") 47 c7WithFile =
      processEntries yamlParseMini id (asciiBytes "/S") 47
        (c7WithFile.filter Entry.isDir) ∧
    mainRun yamlParseMini id (asciiBytes "/S") 47 (some c7Root) = RunResult.crash :=
  ⟨((C7_amended yamlParseMini id (asciiBytes "/S") 47).1 none).mpr rfl,
   (C7_amended yamlParseMini id (asciiBytes "/S") 47).2.1 c7WithFile,
   ((C7_amended yamlParseMini id (asciiBytes "/S") 47).2.2 c7Root (asciiBytes "pkg")
      [Entry.file skillMdName c7Content] c7Map (List.mem_cons_self _ _) rfl rfl).1⟩

/-- A listing without package subdirectories scans to zero errors and zero
records. -/
theorem processEntries_nodirs (yamlParse : Bytes → Except Bytes Yaml)
    (H : Bytes → Bytes) (rootPath : Bytes) (sep : Nat) :
    ∀ l : List Entry, (∀ e ∈ l, Entry.isDir e = false) →
      processEntries yamlParse H rootPath sep l = Except.ok (0, []) := by
  intro l
  induction l with
  | nil => intro _; rfl
  | cons hd rest ih =>
    intro h
    cases hd with
    | file m c => exact ih (fun e he => h e (List.mem_cons_of_mem _ he))
    | dir m t => exact absurd (h _ (List.mem_cons_self _ _)) (by simp [Entry.isDir])

/-- C8: an existing root with no package subdirectories yields a successful
run, exit status 0, whose artifact is exactly the two-space-indented
`\x7b"skills": []\x7d` object followed by a single newline. -/
theorem C8_empty_registry (yamlParse : Bytes → Except Bytes Yaml) (H : Bytes → Bytes)
    (rootPath : Bytes) (sep : Nat) (es : List Entry)
    (h : ∀ e ∈ es, Entry.isDir e = false) :
    mainRun yamlParse H rootPath sep (some es) =
      RunResult.success emptyRegistryBytes 0 ∧
    exitCode (mainRun yamlParse H rootPath sep (some es)) = 0 := by
  have h' : ∀ e ∈ sortedEntries es, Entry.isDir e = false := fun e he =>
    h e ((List.mem_insertionSort _).mp he)
  have hpe := processEntries_nodirs yamlParse H rootPath sep _ h'
  have hmain : mainRun yamlParse H rootPath sep (some es) =
      RunResult.success (emitRegistry []) 0 := by
    simp only [mainRun, hpe]
    rfl
  have hbytes : emitRegistry [] = emptyRegistryBytes := by
    simp only [emitRegistry, dumpJson, dumpField, dumpFields, escString, jNewline]
    decide
  rw [hmain, hbytes]
  exact ⟨rfl, rfl⟩

/-- Closed instance of C8: a root holding only a stray regular file emits the
empty registry and exits 0. -/
theorem C8_witness :
    mainRun yamlParseMini id (asciiBytes "/S") 47
        (some [Entry.file (asciiBytes "README.md") (asciiBytes "hi")]) =
      RunResult.success emptyRegistryBytes 0 ∧
    exitCode (mainRun yamlParseMini id (asciiBytes "/S") 47
        (some [Entry.file (asciiBytes "README.md") (asciiBytes "hi")])) = 0 :=
  C8_empty_registry yamlParseMini id (asciiBytes "/S") 47 _ (by decide)

/-- C9: a package whose frontmatter parses as a mapping holding all four
required keys but whose `description` value is not a string passes
validation (presence is checked, value types never are), and record
construction in `main` then raises at `frontmatter["description"].strip()`,
aborting the entire run instead of counting a per-package error. -/
theorem C9_nonstring_description (yamlParse : Bytes → Except Bytes Yaml)
    (pkg : List Entry) (nm content a body c : Bytes) (m : List (Bytes × Yaml)) (d : Yaml)
    (hfind : findSkillMd pkg = some (Entry.file nm content))
    (hlw : leadsWith fence content = true)
    (hsplit : pySplit2 fence content = [a, body, c])
    (hy : yamlParse body = Except.ok (Yaml.map m))
    (hkeys : firstMissingField m = none)
    (hd : ymLookup m (asciiBytes "description") = some d)
    (hns : ∀ b, d ≠ Yaml.str b) :
    parse_skill_md yamlParse pkg = some (Except.ok m) ∧
    (∀ hash, buildRecord m hash = Except.error ()) ∧
    (∀ (H : Bytes → Bytes) rootPath sep es q, Entry.dir q pkg ∈ es →
      mainRun yamlParse H rootPath sep (some es) = RunResult.crash) := by
  have hparse : parse_skill_md yamlParse pkg = some (Except.ok m) := by
    simp [parse_skill_md, hfind, hlw, hsplit, hy, hkeys]
  have hbr : ∀ hash, buildRecord m hash = Except.error () := by
    intro hash
    unfold buildRecord
    rw [hd]
    cases d with
    | str sdesc => exact absurd rfl (hns sdesc)
    | nil => rfl
    | bool b => rfl
    | int v => rfl
    | seq l => rfl
    | map mm => rfl
  refine ⟨hparse, hbr, ?_⟩
  intro H rootPath sep es q hmem
  have hmem' : Entry.dir q pkg ∈ sortedEntries es := by
    unfold sortedEntries
    exact (List.mem_insertionSort _).mpr hmem
  have hpe := processEntries_crash_of_mem yamlParse H rootPath sep hparse (hbr _) _ hmem'
  simp only [mainRun, hpe]

/-- Closed instance of C9: `description: 1` passes validation and the run
aborts. -/
theorem C9_witness :
    parse_skill_md yamlParseMini c9Pkg = some (Except.ok c9Map) ∧
    buildRecord c9Map (asciiBytes "h") = Except.error () ∧
    mainRun yamlParseMini id (asciiBytes "/S") 47
        (some [Entry.dir (asciiBytes "pkg") c9Pkg]) = RunResult.crash := by
  have h := C9_nonstring_description yamlParseMini c9Pkg skillMdName c9Content
    (asciiBytes "") (asciiBytes "\nname: p\ndescription: 1\nversion: 1\nauthor: a\n")
    (asciiBytes "\nbody") c9Map (Yaml.int 1)
    rfl rfl rfl rfl rfl rfl (fun b hb => Yaml.noConfusion hb)
  exact ⟨h.1, h.2.1 (asciiBytes "h"),
    h.2.2 id (asciiBytes "/S") 47 _ (asciiBytes "pkg") (List.mem_cons_self _ _)⟩

/-- A successfully built record's `id` is the frontmatter's declared
`name` value. -/
theorem buildRecord_id (fm : List (Bytes × Yaml)) (hash : Bytes) (r : SkillRecord)
    (h : buildRecord fm hash = Except.ok r) :
    r.id = (ymLookup fm (asciiBytes "name")).getD Yaml.nil := by
  unfold buildRecord at h
  cases hd : ymLookup fm (asciiBytes "description") with
  | none => rw [hd] at h; exact Except.noConfusion h
  | some d =>
    rw [hd] at h
    cases d with
    | str s =>
      injection h with h'
      subst h'
      rfl
    | nil => exact Except.noConfusion h
    | bool b => exact Except.noConfusion h
    | int v => exact Except.noConfusion h
    | seq l => exact Except.noConfusion h
    | map mm => exact Except.noConfusion h

/-- C10: two distinct valid package directories whose declared `name` fields
are the same value both contribute a record, in directory-name order, and
both records carry that same declared name as their `id` — no duplicate-id
detection exists, and the `id` comes from the declared name, not from the
directory name used for ordering. -/
theorem C10_duplicate_ids (yamlParse : Bytes → Except Bytes Yaml) (H : Bytes → Bytes)
    (rootPath : Bytes) (sep : Nat) (n₁ n₂ v : Bytes) (s₁ s₂ : List Entry)
    (fm₁ fm₂ : List (Bytes × Yaml)) (r₁ r₂ : SkillRecord)
    (hlt : n₁ < n₂)
    (hp₁ : parse_skill_md yamlParse s₁ = some (Except.ok fm₁))
    (hp₂ : parse_skill_md yamlParse s₂ = some (Except.ok fm₂))
    (hn₁ : ymLookup fm₁ (asciiBytes "name") = some (Yaml.str v))
    (hn₂ : ymLookup fm₂ (asciiBytes "name") = some (Yaml.str v))
    (hb₁ : buildRecord fm₁ (compute_content_hash H (rootPath ++ sep :: n₁) sep s₁) =
      Except.ok r₁)
    (hb₂ : buildRecord fm₂ (compute_content_hash H (rootPath ++ sep :: n₂) sep s₂) =
      Except.ok r₂) :
    mainRun yamlParse H rootPath sep
        (some [Entry.dir n₁ s₁, Entry.dir n₂ s₂]) =
      RunResult.success (emitRegistry [r₁, r₂]) 2 ∧
    r₁.id = Yaml.str v ∧ r₂.id = Yaml.str v := by
  have hsort : sortedEntries [Entry.dir n₁ s₁, Entry.dir n₂ s₂] =
      [Entry.dir n₁ s₁, Entry.dir n₂ s₂] := by
    unfold sortedEntries
    simp [List.insertionSort, List.orderedInsert, Entry.name, le_of_lt hlt]
  have hpe : processEntries yamlParse H rootPath sep
      [Entry.dir n₁ s₁, Entry.dir n₂ s₂] = Except.ok (0, [r₁, r₂]) := by
    simp only [processEntries, hp₁, hp₂, hb₁, hb₂]
  refine ⟨?_, ?_, ?_⟩
  · simp only [mainRun, hsort, hpe]
    rfl
  · rw [buildRecord_id fm₁ _ r₁ hb₁, hn₁]
    rfl
  · rw [buildRecord_id fm₂ _ r₂ hb₂, hn₂]
    rfl

/-- Closed instance of C10: directories `aaa` and `bbb`, both declaring
`name: zzz`, are both emitted with id `zzz`. -/
theorem C10_witness :
    mainRun yamlParseMini id (asciiBytes "/S") 47
        (some [Entry.dir (asciiBytes "aaa") c10Pkg₁,
               Entry.dir (asciiBytes "bbb") c10Pkg₂]) =
      RunResult.success (emitRegistry [c10R₁, c10R₂]) 2 ∧
    SkillRecord.id c10R₁ = Yaml.str (asciiBytes "zzz") ∧
    SkillRecord.id c10R₂ = Yaml.str (asciiBytes "zzz") :=
  C10_duplicate_ids yamlParseMini id (asciiBytes "/S") 47
    (asciiBytes "aaa") (asciiBytes "bbb") (asciiBytes "zzz")
    c10Pkg₁ c10Pkg₂ c10Fm₁ c10Fm₂ c10R₁ c10R₂
    (by decide) rfl rfl rfl rfl rfl rfl
